import Mathlib

/-!
Verification of the fsnap Go library (packages `filesnap` and `dirsnap`).

The library converts between a filesystem subtree and in-memory snapshots:
`dirsnap.Dirs` is a nested tree of entry names (files are `nil` values,
subdirectories nested maps), `filesnap.Files` maps slash-joined relative
paths to file contents.  Both packages expose `ReadFS` (depth-limited scan
through an abstract filesystem capability) and `Write` (materialisation).

Embedding choices:
* Paths are lists of name segments (`FsPath`); Go's `path.Join`/`path.Dir` on
  well-formed segment names correspond to `++` and `dropLast`.
* The abstract filesystem capability (the external `osa` interface: `ReadDir`,
  `ReadFile`, `WriteFile`, `Mkdir`, `MkdirAll`, `Stat`, `IsExist`) is modelled
  by an in-memory tree `FsNode`.  Directory entries are association lists in
  listing order; a Go map is modelled by such a list with distinct keys.
  Every node carries the error the capability reports alongside its payload
  when the node is listed (for directories) or read (for files): `none` on a
  healthy real filesystem, `some .eof` for the benign `io.EOF` condition the
  scanners tolerate, or an injected failure such as a permission error.
* Fallible operations return `Except FsErr FsNode` (state unchanged on
  error); the library's `Write` entry points return the final filesystem
  state together with an optional error, since Go leaves partially applied
  mutations in place when aborting.
* Go's recursion over paths (`ReadFS(fsys, path.Join(dir, en), n-1)`) is
  replaced by structural recursion over the subtree found at that path,
  which coincides with it on this model.
-/

/-- Error values of the abstract filesystem capability that the library
distinguishes: `fs.ErrNotExist`, `fs.ErrExist`, `ENOTDIR`, `EISDIR` and
`io.EOF`.  `os.IsExist` is true exactly for `exist`. -/
inductive FsErr where
  | notExist
  | exist
  | notDir
  | isDir
  | eof
deriving DecidableEq, Repr

/-- A path relative to some root directory, as a list of name segments. -/
abbrev FsPath := List String

/-- In-memory model of a filesystem subtree, the state the abstract
capability operates on.  `re` is the error reported alongside the payload
when the node is listed (`ReadDir`) or read (`ReadFile`): `none` for a
healthy node. -/
inductive FsNode where
  | file (re : Option FsErr) (data : List Nat)
  | dir (re : Option FsErr) (entries : List (String × FsNode))

/-- Look a name up in a directory's entry list (first match). -/
def lookupEntry : List (String × FsNode) → String → Option FsNode
  | [], _ => none
  | (m, c) :: rest, n => if m = n then some c else lookupEntry rest n

/-- Replace the value stored under a name (first match; unchanged if the
name is absent). -/
def setEntry : List (String × FsNode) → String → FsNode → List (String × FsNode)
  | [], _, _ => []
  | (m, c) :: rest, n, v => if m = n then (m, v) :: rest else (m, c) :: setEntry rest n v

/-- Is this node a directory (the `DirEntry.IsDir` flag)? -/
def FsNode.isDir : FsNode → Bool
  | .dir _ _ => true
  | .file _ _ => false

/-- Resolve a path from this node downward (the walk `Stat` and the other
capability operations perform). -/
def FsNode.lookup : FsNode → FsPath → Option FsNode
  | s, [] => some s
  | .file _ _, _ :: _ => none
  | .dir _ es, n :: p =>
    match lookupEntry es n with
    | some c => c.lookup p
    | none => none

/-- Does the path resolve to a directory? -/
def FsNode.isDirAt (s : FsNode) (p : FsPath) : Bool :=
  match s.lookup p with
  | some c => c.isDir
  | none => false

/-- Contents of the plain file at the path, if there is one. -/
def FsNode.fileAt (s : FsNode) (p : FsPath) : Option (List Nat) :=
  match s.lookup p with
  | some (.file _ d) => some d
  | _ => none

/-- Model of `os.WriteFile` relative to this root: create or truncate the
plain file at `p` with the given contents.  Errors: a path component that is
a plain file (`ENOTDIR`), a missing parent (`ErrNotExist`), or an existing
directory at the target (`EISDIR`, for which `os.IsExist` is false). -/
def FsNode.writeFile : FsNode → FsPath → List Nat → Except FsErr FsNode
  | .file _ _, _, _ => .error .notDir
  | .dir _ _, [], _ => .error .isDir
  | .dir re es, [n], data =>
    match lookupEntry es n with
    | some (.dir _ _) => .error .isDir
    | some (.file _ _) => .ok (.dir re (setEntry es n (.file none data)))
    | none => .ok (.dir re (es ++ [(n, .file none data)]))
  | .dir re es, n :: p1 :: p2, data =>
    match lookupEntry es n with
    | some c =>
      match c.writeFile (p1 :: p2) data with
      | .ok c' => .ok (.dir re (setEntry es n c'))
      | .error e => .error e
    | none => .error .notExist

/-- Model of `os.Mkdir` one level below this directory: create an empty
directory under the given name; any existing object of that name yields
`ErrExist`. -/
def FsNode.mkdir1 : FsNode → String → Except FsErr FsNode
  | .file _ _, _ => .error .notDir
  | .dir re es, n =>
    match lookupEntry es n with
    | some _ => .error .exist
    | none => .ok (.dir re (es ++ [(n, .dir none [])]))

/-- Model of `os.MkdirAll` relative to this root: ensure the whole chain of
directories down to `p` exists, tolerating components that already exist as
directories; a component that exists as a plain file yields `ENOTDIR`. -/
def FsNode.mkdirAll : FsNode → FsPath → Except FsErr FsNode
  | .file _ _, _ => .error .notDir
  | .dir re es, [] => .ok (.dir re es)
  | .dir re es, n :: p =>
    match lookupEntry es n with
    | some c =>
      match c.mkdirAll p with
      | .ok c' => .ok (.dir re (setEntry es n c'))
      | .error e => .error e
    | none =>
      match (FsNode.dir none []).mkdirAll p with
      | .ok c' => .ok (.dir re (es ++ [(n, c')]))
      | .error e => .error e

/-- Is `q` an initial segment of `p` (`q` names the same object as `p` or an
ancestor of it)? -/
def isInitSeg : FsPath → FsPath → Bool
  | [], _ => true
  | _ :: _, [] => false
  | a :: as, b :: bs => a == b && isInitSeg as bs

mutual
/-- A node is healthy when no error is injected anywhere in it and every
directory lists distinct names, as on a real filesystem. -/
def FsNode.fsOk : FsNode → Bool
  | .file re _ => re == none
  | .dir re es => re == none && fsOkEntries es
/-- Entry-list part of `FsNode.fsOk`. -/
def fsOkEntries : List (String × FsNode) → Bool
  | [] => true
  | (n, c) :: rest =>
    c.fsOk && !((rest.map (·.1)).contains n) && fsOkEntries rest
end

/-! ## Package `filesnap` -/

/-- Value type of a `Files` entry: a Go byte slice, which is either `nil`
(`Option.none`) or a sequence of bytes. -/
abbrev FData := Option (List Nat)

/-- The byte contents a value denotes when written (`os.WriteFile` writes the
bytes of the slice; a nil slice has none). -/
def FData.bytes : FData → List Nat
  | none => []
  | some d => d

/-- The `filesnap.Files` snapshot: a map from relative paths to file
contents, modelled as an association list with distinct keys.  Go's
slash-joined string keys correspond to the segment lists. -/
abbrev Files := List (FsPath × FData)

/-- First-match association lookup on a `Files` snapshot (map access). -/
def Files.alookup : Files → FsPath → Option FData
  | [], _ => none
  | (q, w) :: rest, p => if q = p then some w else Files.alookup rest p

/-- Map assignment `f[sp] = data`: replace the value if the key is present,
otherwise append the binding. -/
def Files.insert : Files → FsPath → FData → Files
  | [], p, v => [(p, v)]
  | (q, w) :: rest, p, v =>
    if q = p then (q, v) :: rest else (q, w) :: Files.insert rest p v

mutual
/-- `Files.readFS` from `filesnap.go` (lines 75-98).  The first argument is
the subtree of the scanned filesystem at `rootDir/subDir`; `subDir` is the
relative path prefix and `acc` the accumulated snapshot `f`.  `ReadDir`
yields this directory's entries together with its reported error, which is
ignored when it is `nil` or `io.EOF`; files are read via `ReadFile`, whose
reported error is likewise tolerated when `nil` or `io.EOF`; subdirectories
are entered only while `n ≠ 0`. -/
def Files.readFS : FsNode → FsPath → Int → Files → Files × Option FsErr
  | .file _ _, _, _, acc => (acc, some .notDir)
  | .dir re es, subDir, n, acc =>
    if re ≠ none ∧ re ≠ some .eof then (acc, re)
    else Files.readEntries es subDir n acc
/-- Loop body of `Files.readFS` over the listed entries. -/
def Files.readEntries : List (String × FsNode) → FsPath → Int → Files → Files × Option FsErr
  | [], _, _, acc => (acc, none)
  | (en, .file fe fd) :: rest, subDir, n, acc =>
    let acc1 := acc.insert (subDir ++ [en]) (some fd)
    if fe ≠ none ∧ fe ≠ some .eof then (acc1, fe)
    else Files.readEntries rest subDir n acc1
  | (en, .dir de des) :: rest, subDir, n, acc =>
    if n ≠ 0 then
      match Files.readFS (.dir de des) (subDir ++ [en]) (n - 1) acc with
      | (acc1, some e) => (acc1, some e)
      | (acc1, none) => Files.readEntries rest subDir n acc1
    else Files.readEntries rest subDir n acc
end

/-- `filesnap.ReadFS` (lines 69-73): scan the directory `dir` of `fsys`,
starting from the empty snapshot and the empty relative prefix. -/
def filesnap.ReadFS (fsys : FsNode) (dir : FsPath) (n : Int) : Files × Option FsErr :=
  match fsys.lookup dir with
  | some nd => Files.readFS nd [] n []
  | none => ([], some .notExist)

/-- `Files.Write` (lines 104-116): for each entry, ensure the parent
directory chain exists (`os.MkdirAll`), then write the contents
(`os.WriteFile`), stopping at the first error.  The state is the target
directory's subtree. -/
def Files.Write : Files → FsNode → FsNode × Option FsErr
  | [], s => (s, none)
  | (p, data) :: rest, s =>
    match s.mkdirAll p.dropLast with
    | .error e => (s, some e)
    | .ok s1 =>
      match s1.writeFile p data.bytes with
      | .error e => (s1, some e)
      | .ok s2 => Files.Write rest s2

/-! ## Package `dirsnap` -/

/-- The `dirsnap.Dirs` snapshot: `Dirs.nil` is the nil map that marks a
plain file (and the nil result of a failed scan); `Dirs.node` is a map from
entry names to nested snapshots, modelled as an association list with
distinct keys. -/
inductive Dirs where
  | nil
  | node (entries : List (String × Dirs))

/-- `writeEmptyFile` from the `dirsnap` package (writes an empty byte
slice). -/
def writeEmptyFile (s : FsNode) (n : String) : Except FsErr FsNode :=
  s.writeFile [n] []

/-- `os.IsExist` on an optional error. -/
def isExistErr (e : Option FsErr) : Bool :=
  e == some FsErr.exist

/-- `Dirs.isWriteErrOk` (dirsnap, lines 125-132): a write error is tolerable
when there is no error at all, or when it is an already-exists error and
`Stat` shows the existing object's type matches the one being written. -/
def isWriteErrOk (s : FsNode) (err : Option FsErr) (name : String) (wantDir : Bool) : Bool :=
  if !(isExistErr err) then err == none
  else
    match s.lookup [name] with
    | some nd => nd.isDir == wantDir
    | none => false

mutual
/-- `Dirs.Write` (dirsnap, lines 104-123): for each entry, create an empty
file (file marker) or a directory plus its nested snapshot, tolerating
matching-type collisions via `isWriteErrOk` and stopping at the first other
error.  The state is the target directory's subtree; `st.Write(name)`
becomes a recursive write on the child node under `name`. -/
def Dirs.Write : Dirs → FsNode → FsNode × Option FsErr
  | .nil, s => (s, none)
  | .node l, s => Dirs.writeEntries l s
/-- Loop body of `Dirs.Write` over the snapshot's entries. -/
def Dirs.writeEntries : List (String × Dirs) → FsNode → FsNode × Option FsErr
  | [], s => (s, none)
  | (n, Dirs.nil) :: rest, s =>
    let r := match writeEmptyFile s n with
      | .ok s1 => (s1, (none : Option FsErr))
      | .error e => (s, some e)
    if !(isWriteErrOk r.1 r.2 n false) then (r.1, r.2)
    else Dirs.writeEntries rest r.1
  | (n, Dirs.node sub) :: rest, s =>
    let r := match s.mkdir1 n with
      | .ok s1 => (s1, (none : Option FsErr))
      | .error e => (s, some e)
    if !(isWriteErrOk r.1 r.2 n true) then (r.1, r.2)
    else
      match r.1 with
      | .file fe fd => (.file fe fd, some .notDir)
      | .dir re es =>
        match lookupEntry es n with
        | none => (.dir re es, some .notExist)
        | some c =>
          match Dirs.writeEntries sub c with
          | (c', some e) => (.dir re (setEntry es n c'), some e)
          | (c', none) => Dirs.writeEntries rest (.dir re (setEntry es n c'))
end

mutual
/-- The recursive body of `dirsnap.ReadFS` (lines 74-97) on the subtree at
the scanned path: `ReadDir` yields the entries together with the reported
error, which is ignored when it is `nil` or `io.EOF` (otherwise `(nil, err)`
is returned); files become `nil` markers, subdirectories empty snapshots at
the depth cutoff, and recursive scans otherwise. -/
def dirsnap.scanFs : FsNode → Int → Dirs × Option FsErr
  | .file _ _, _ => (.nil, some .notDir)
  | .dir re es, n =>
    if re ≠ none ∧ re ≠ some .eof then (.nil, re)
    else
      match dirsnap.scanEntries es n with
      | (l, err) => (.node l, err)
/-- Loop body of `dirsnap.ReadFS` over the listed entries; an error in a
recursive scan aborts with the snapshot built so far (`return t, err`). -/
def dirsnap.scanEntries : List (String × FsNode) → Int → List (String × Dirs) × Option FsErr
  | [], _ => ([], none)
  | (en, c) :: rest, n =>
    if !c.isDir then
      match dirsnap.scanEntries rest n with
      | (l, err) => ((en, .nil) :: l, err)
    else if n == 0 then
      match dirsnap.scanEntries rest n with
      | (l, err) => ((en, .node []) :: l, err)
    else
      match dirsnap.scanFs c (n - 1) with
      | (sub, some e) => ([(en, sub)], some e)
      | (sub, none) =>
        match dirsnap.scanEntries rest n with
        | (l, err) => ((en, sub) :: l, err)
end

/-- `dirsnap.ReadFS` (lines 74-97): scan the directory `dir` of `fsys`. -/
def dirsnap.ReadFS (fsys : FsNode) (dir : FsPath) (n : Int) : Dirs × Option FsErr :=
  match fsys.lookup dir with
  | some nd => dirsnap.scanFs nd n
  | none => (.nil, some .notExist)

/-! ## Well-formedness of snapshots

Names and keys for which Go's `path.Join`/`path.Dir` are plain segment
concatenation/removal: nonempty, no separator, not `.` or `..`.  A snapshot
"containing only plain files and directories" is one whose entries are such
names with the uniqueness a Go map guarantees, and (for the flat form) whose
keys do not place a file below another file. -/

/-- A single entry name that names exactly one directory entry in Go. -/
def validName (n : String) : Bool :=
  n ≠ "" && !(n.data.contains '/') && n ≠ "." && n ≠ ".."

mutual
/-- Well-formed tree snapshot: a real (non-nil) map at the top, every name
valid and unique at its level, every subdirectory recursively well-formed. -/
def Dirs.wf : Dirs → Bool
  | .nil => false
  | .node l => Dirs.wfEntries l
/-- Entry-list part of `Dirs.wf`: valid distinct names, each value a file
marker or a recursively well-formed nested snapshot. -/
def Dirs.wfEntries : List (String × Dirs) → Bool
  | [] => true
  | (n, st) :: rest =>
    validName n && !((rest.map (·.1)).contains n) && Dirs.wfVal st &&
      Dirs.wfEntries rest
/-- Value part of `Dirs.wf`: a `nil` file marker is always fine. -/
def Dirs.wfVal : Dirs → Bool
  | .nil => true
  | .node l => Dirs.wfEntries l
end

/-- A well-formed flat-snapshot key: a nonempty relative path of valid
names. -/
def validFsPath (p : FsPath) : Bool :=
  !p.isEmpty && p.all validName

/-- No key in the list is an initial segment of another (this also forces
the keys to be distinct, since a path is an initial segment of itself). -/
def noInitPairs : List FsPath → Bool
  | [] => true
  | p :: rest =>
    rest.all (fun q => !isInitSeg p q && !isInitSeg q p) && noInitPairs rest

/-- Well-formed flat snapshot: every key a valid relative path, and no key
lying on another key's path (each key denotes a plain file, directories are
only implicit prefixes). -/
def Files.wf (f : Files) : Bool :=
  f.all (fun e => validFsPath e.1) && noInitPairs (f.map (·.1))

/-- Every value of the flat snapshot is an actual (non-nil) byte sequence. -/
def Files.allSome (f : Files) : Bool :=
  f.all (fun e => e.2.isSome)

/-! ## Reference functions used to state the properties -/

/-- The filesystem image of a well-formed tree snapshot's entry list: file
markers become empty files, nested snapshots directories, in snapshot
order. -/
def Dirs.toEntries : List (String × Dirs) → List (String × FsNode)
  | [] => []
  | (n, Dirs.nil) :: rest => (n, .file none []) :: Dirs.toEntries rest
  | (n, Dirs.node sub) :: rest =>
    (n, .dir none (Dirs.toEntries sub)) :: Dirs.toEntries rest

/-- The entry list of a tree snapshot (`nil` has none). -/
def Dirs.entriesOf : Dirs → List (String × Dirs)
  | .nil => []
  | .node l => l

/-- All files of a filesystem subtree in depth-first listing order, with
their relative paths below `pre`: the reference result of an unlimited
healthy flat scan. -/
def FsNode.dfs : FsNode → FsPath → Files
  | .file _ _, _ => []
  | .dir _ [], _ => []
  | .dir re ((n, .file _ d) :: rest), pre =>
    (pre ++ [n], some d) :: FsNode.dfs (.dir re rest) pre
  | .dir re ((n, .dir de des) :: rest), pre =>
    FsNode.dfs (.dir de des) (pre ++ [n]) ++ FsNode.dfs (.dir re rest) pre

/-! ## Lemmas about the scanners -/

/-- At depth 0 the tree scanner records each listed entry directly: files as
`nil` markers, directories as empty snapshots, without looking inside. -/
theorem scanEntries_depth_zero (es : List (String × FsNode)) :
    dirsnap.scanEntries es 0 =
      (es.map fun e => (e.1, if e.2.isDir then Dirs.node [] else Dirs.nil), none) := by
  induction es with
  | nil => simp [dirsnap.scanEntries]
  | cons e rest ih =>
    obtain ⟨en, c⟩ := e
    cases c <;> simp [dirsnap.scanEntries, ih, FsNode.isDir]

/-- C5. Tree depth truncation: scanning any directory with depth 0 lists
exactly its immediate entries, every file as a file marker and every
subdirectory as an empty nested snapshot, regardless of the subdirectory's
real contents. -/
theorem dirsnap_depth_zero (es : List (String × FsNode)) :
    dirsnap.ReadFS (.dir none es) [] 0 =
      (.node (es.map fun e => (e.1, if e.2.isDir then Dirs.node [] else Dirs.nil)), none) := by
  simp [dirsnap.ReadFS, FsNode.lookup, dirsnap.scanFs, scanEntries_depth_zero]

/-- The tree scanner never surfaces `io.EOF`. -/
theorem scanFs_no_eof (s : FsNode) (n : Int) :
    (dirsnap.scanFs s n).2 ≠ some .eof := by
  refine dirsnap.scanFs.induct
    (fun s n => (dirsnap.scanFs s n).2 ≠ some FsErr.eof)
    (fun es n => (dirsnap.scanEntries es n).2 ≠ some FsErr.eof)
    ?_ ?_ ?_ ?_ ?_ ?_ ?_ ?_ s n
  · intro re data n
    simp [dirsnap.scanFs]
  · intro re es n h
    simp only [dirsnap.scanFs, if_pos h]
    rcases h with ⟨h1, h2⟩
    simpa using h2
  · intro re es n h l err heq ih
    simp [dirsnap.scanFs, if_neg h, heq]
    simpa [heq] using ih
  · intro n
    simp [dirsnap.scanEntries]
  · intro en c rest n hc l err heq ih
    simp [dirsnap.scanEntries, hc, heq]
    simpa [heq] using ih
  · intro en c rest n hc hn l err heq ih
    simp [dirsnap.scanEntries, hc, hn, heq]
    simpa [heq] using ih
  · intro en c rest n hc hn sub e heq ih
    simp [dirsnap.scanEntries, hc, hn, heq]
    simpa [heq] using ih
  · intro en c rest n hc hn sub heq l err heq2 ih1 ih2
    simp [dirsnap.scanEntries, hc, hn, heq, heq2]
    simpa [heq2] using ih2

/-- The entry-loop of the tree scanner never surfaces `io.EOF`. -/
theorem scanEntries_no_eof (es : List (String × FsNode)) (n : Int) :
    (dirsnap.scanEntries es n).2 ≠ some .eof := by
  refine dirsnap.scanEntries.induct
    (fun s n => (dirsnap.scanFs s n).2 ≠ some FsErr.eof)
    (fun es n => (dirsnap.scanEntries es n).2 ≠ some FsErr.eof)
    ?_ ?_ ?_ ?_ ?_ ?_ ?_ ?_ es n
  · intro re data n
    simp [dirsnap.scanFs]
  · intro re es n h
    simp only [dirsnap.scanFs, if_pos h]
    rcases h with ⟨h1, h2⟩
    simpa using h2
  · intro re es n h l err heq ih
    simp [dirsnap.scanFs, if_neg h, heq]
    simpa [heq] using ih
  · intro n
    simp [dirsnap.scanEntries]
  · intro en c rest n hc l err heq ih
    simp [dirsnap.scanEntries, hc, heq]
    simpa [heq] using ih
  · intro en c rest n hc hn l err heq ih
    simp [dirsnap.scanEntries, hc, hn, heq]
    simpa [heq] using ih
  · intro en c rest n hc hn sub e heq ih
    simp [dirsnap.scanEntries, hc, hn, heq]
    simpa [heq] using ih
  · intro en c rest n hc hn sub heq l err heq2 ih1 ih2
    simp [dirsnap.scanEntries, hc, hn, heq, heq2]
    simpa [heq2] using ih2

/-- The flat scanner never surfaces `io.EOF`. -/
theorem readFS_no_eof (s : FsNode) (subDir : FsPath) (n : Int) (acc : Files) :
    (Files.readFS s subDir n acc).2 ≠ some .eof := by
  refine Files.readFS.induct
    (fun s subDir n acc => (Files.readFS s subDir n acc).2 ≠ some FsErr.eof)
    (fun es subDir n acc => (Files.readEntries es subDir n acc).2 ≠ some FsErr.eof)
    ?_ ?_ ?_ ?_ ?_ ?_ ?_ ?_ ?_ s subDir n acc
  · intro re data subDir n acc
    simp [Files.readFS]
  · intro re es subDir n acc h
    simp only [Files.readFS, if_pos h]
    rcases h with ⟨h1, h2⟩
    simpa using h2
  · intro re es subDir n acc h ih
    simpa [Files.readFS, if_neg h] using ih
  · intro subDir n acc
    simp [Files.readEntries]
  · intro en fe fd rest subDir n acc h
    simp only [Files.readEntries, if_pos h]
    rcases h with ⟨h1, h2⟩
    simpa using h2
  · intro en fe fd rest subDir n acc acc1 h ih
    simpa [Files.readEntries, if_neg h] using ih
  · intro en de des rest subDir n acc hn acc1 e heq ih
    simp only [Files.readEntries, if_pos hn, heq]
    simpa [heq] using ih
  · intro en de des rest subDir n acc hn acc1 heq ih1 ih2
    simp only [Files.readEntries, if_pos hn, heq]
    exact ih2
  · intro en de des rest subDir n acc hn ih
    simpa [Files.readEntries, hn] using ih

/-- C8. End-of-listing tolerance: a directory whose listing reports `io.EOF`
scans exactly like one whose listing reports no error, in both packages, and
neither scanner ever returns `io.EOF` to its caller. -/
theorem fsnap_scan_eof_tolerated :
    (∀ (es : List (String × FsNode)) (n : Int),
        dirsnap.scanFs (.dir (some .eof) es) n = dirsnap.scanFs (.dir none es) n) ∧
    (∀ (es : List (String × FsNode)) (subDir : FsPath) (n : Int) (acc : Files),
        Files.readFS (.dir (some .eof) es) subDir n acc =
          Files.readFS (.dir none es) subDir n acc) ∧
    (∀ (fsys : FsNode) (dir : FsPath) (n : Int),
        (dirsnap.ReadFS fsys dir n).2 ≠ some .eof) ∧
    (∀ (fsys : FsNode) (dir : FsPath) (n : Int),
        (filesnap.ReadFS fsys dir n).2 ≠ some .eof) := by
  refine ⟨fun es n => ?_, fun es subDir n acc => ?_, fun fsys dir n => ?_, fun fsys dir n => ?_⟩
  · simp [dirsnap.scanFs]
  · simp [Files.readFS]
  · unfold dirsnap.ReadFS
    cases FsNode.lookup fsys dir with
    | none => simp
    | some nd => simpa using scanFs_no_eof nd n
  · unfold filesnap.ReadFS
    cases FsNode.lookup fsys dir with
    | none => simp
    | some nd => simpa using readFS_no_eof nd [] n []

/-! ## Lemmas about directory entry lists -/

/-- Rewriting an entry to the value it already has changes nothing. -/
theorem setEntry_self {es : List (String × FsNode)} {n : String} {c : FsNode}
    (h : lookupEntry es n = some c) : setEntry es n c = es := by
  induction es with
  | nil => simp [setEntry]
  | cons e rest ih =>
    obtain ⟨m, w⟩ := e
    by_cases hm : m = n
    · subst hm
      simp [lookupEntry] at h
      simp [setEntry, h]
    · simp [lookupEntry, hm] at h
      simp [setEntry, hm, ih h]

/-- Looking up the name just set yields the new value (when the name was
present, so that `setEntry` replaced it). -/
theorem lookupEntry_setEntry {es : List (String × FsNode)} {n : String} {c : FsNode}
    (v : FsNode) (h : lookupEntry es n = some c) :
    lookupEntry (setEntry es n v) n = some v := by
  induction es with
  | nil => simp [lookupEntry] at h
  | cons e rest ih =>
    obtain ⟨m, w⟩ := e
    by_cases hm : m = n
    · subst hm
      simp [setEntry, lookupEntry]
    · simp [lookupEntry, hm] at h
      simp [setEntry, lookupEntry, hm, ih h]

/-- Looking up a different name is unaffected by `setEntry`. -/
theorem lookupEntry_setEntry_ne {es : List (String × FsNode)} {n m : String}
    (v : FsNode) (h : m ≠ n) :
    lookupEntry (setEntry es n v) m = lookupEntry es m := by
  induction es with
  | nil => simp [setEntry]
  | cons e rest ih =>
    obtain ⟨k, w⟩ := e
    by_cases hk : k = n
    · have hnm : ¬(n = m) := fun hnm => h hnm.symm
      simp [setEntry, hk, lookupEntry, hnm]
    · simp [setEntry, hk, lookupEntry, ih]

/-- Lookup distributes over appended entry lists. -/
theorem lookupEntry_append (es l : List (String × FsNode)) (n : String) :
    lookupEntry (es ++ l) n =
      match lookupEntry es n with
      | some c => some c
      | none => lookupEntry l n := by
  induction es with
  | nil => simp [lookupEntry]
  | cons e rest ih =>
    obtain ⟨m, w⟩ := e
    by_cases hm : m = n <;> simp [lookupEntry, hm, ih]

/-! ## Lemmas about the filesystem operations -/

/-- The parent of any existing object is a directory. -/
theorem lookup_parent_dir {s : FsNode} {p : FsPath} {nd : FsNode}
    (h : s.lookup p = some nd) (hp : p ≠ []) :
    ∃ a b, s.lookup p.dropLast = some (.dir a b) := by
  induction p generalizing s with
  | nil => exact absurd rfl hp
  | cons n p ih =>
    match s with
    | .file re d => simp [FsNode.lookup] at h
    | .dir re es =>
      simp only [FsNode.lookup] at h
      match hc : lookupEntry es n with
      | none => rw [hc] at h; simp at h
      | some c =>
        rw [hc] at h
        cases p with
        | nil =>
          exact ⟨re, es, by simp [FsNode.lookup]⟩
        | cons p1 p2 =>
          obtain ⟨a, b, hab⟩ := ih h (by simp)
          refine ⟨a, b, ?_⟩
          simpa [List.dropLast, FsNode.lookup, hc] using hab

/-- `MkdirAll` on a chain of directories that already fully exists returns
the state unchanged. -/
theorem mkdirAll_id {s : FsNode} {t : FsPath} {a : Option FsErr}
    {b : List (String × FsNode)} (h : s.lookup t = some (.dir a b)) :
    s.mkdirAll t = .ok s := by
  induction t generalizing s with
  | nil =>
    simp [FsNode.lookup] at h
    subst h
    simp [FsNode.mkdirAll]
  | cons n p ih =>
    match s with
    | .file re d => simp [FsNode.lookup] at h
    | .dir re es =>
      simp only [FsNode.lookup] at h
      match hc : lookupEntry es n with
      | none => rw [hc] at h; simp at h
      | some c =>
        rw [hc] at h
        simp only [FsNode.mkdirAll, hc, ih h]
        rw [setEntry_self hc]

/-- Overwriting an existing plain file succeeds and leaves the new contents
(and a healthy node) at the path. -/
theorem writeFile_overwrite {s : FsNode} {p : FsPath} {fe : Option FsErr}
    {fd : List Nat} (d : List Nat) (h : s.lookup p = some (.file fe fd))
    (hp : p ≠ []) :
    ∃ s', s.writeFile p d = .ok s' ∧ s'.lookup p = some (.file none d) := by
  induction p generalizing s with
  | nil => exact absurd rfl hp
  | cons n p ih =>
    match s with
    | .file re dd => simp [FsNode.lookup] at h
    | .dir re es =>
      simp only [FsNode.lookup] at h
      match hc : lookupEntry es n with
      | none => rw [hc] at h; simp at h
      | some c =>
        rw [hc] at h
        cases p with
        | nil =>
          simp [FsNode.lookup] at h
          subst h
          refine ⟨FsNode.dir re (setEntry es n (.file none d)), ?_, ?_⟩
          · simp [FsNode.writeFile, hc]
          · simp [FsNode.lookup, lookupEntry_setEntry _ hc]
        | cons p1 p2 =>
          obtain ⟨c', hc', hl⟩ := ih h (by simp)
          refine ⟨FsNode.dir re (setEntry es n c'), ?_, ?_⟩
          · simp [FsNode.writeFile, hc, hc']
          · simp [FsNode.lookup, lookupEntry_setEntry _ hc, hl]

/-- Writing file contents onto an existing directory fails with `EISDIR`. -/
theorem writeFile_dir_err {s : FsNode} {p : FsPath} {a : Option FsErr}
    {b : List (String × FsNode)} (d : List Nat) (h : s.lookup p = some (.dir a b))
    (hp : p ≠ []) : s.writeFile p d = .error .isDir := by
  induction p generalizing s with
  | nil => exact absurd rfl hp
  | cons n p ih =>
    match s with
    | .file re dd => simp [FsNode.lookup] at h
    | .dir re es =>
      simp only [FsNode.lookup] at h
      match hc : lookupEntry es n with
      | none => rw [hc] at h; simp at h
      | some c =>
        rw [hc] at h
        cases p with
        | nil =>
          simp [FsNode.lookup] at h
          subst h
          simp [FsNode.writeFile, hc]
        | cons p1 p2 =>
          simp [FsNode.writeFile, hc, ih h (by simp)]

/-- A successful `WriteFile` leaves exactly the written contents at the
target path. -/
theorem writeFile_ok_fileAt : ∀ {s : FsNode} {p : FsPath} {d : List Nat} {s' : FsNode},
    s.writeFile p d = .ok s' → s'.lookup p = some (.file none d) := by
  intro s p d
  induction s, p, d using FsNode.writeFile.induct with
  | case1 t re data x =>
    intro s' h
    simp [FsNode.writeFile] at h
  | case2 re entries x =>
    intro s' h
    simp [FsNode.writeFile] at h
  | case3 re es n data a b hc =>
    intro s' h
    simp [FsNode.writeFile, hc] at h
  | case4 re es n data fe fd hc =>
    intro s' h
    simp only [FsNode.writeFile, hc] at h
    cases h
    simp [FsNode.lookup, lookupEntry_setEntry _ hc]
  | case5 re es n data hc =>
    intro s' h
    simp only [FsNode.writeFile, hc] at h
    cases h
    simp [FsNode.lookup, lookupEntry_append, hc, lookupEntry]
  | case6 re es n p1 p2 data c hc c' hc' ih =>
    intro s' h
    simp only [FsNode.writeFile, hc, hc'] at h
    cases h
    simp [FsNode.lookup, lookupEntry_setEntry _ hc, ih hc']
  | case7 re es n p1 p2 data c hc e hc' ih =>
    intro s' h
    simp [FsNode.writeFile, hc, hc'] at h
  | case8 re es n p1 p2 data hc =>
    intro s' h
    simp [FsNode.writeFile, hc] at h

/-! ## Collision-policy theorems -/

/-- C2. Tree-write collision policy: with `nf` an existing plain file and
`nd` an existing directory in the target, writing a file marker over `nf`
succeeds, writing a file marker over `nd` surfaces the underlying `EISDIR`
error, writing a nested snapshot over `nd` succeeds (leaving the state
unchanged for an empty nested snapshot), and writing a nested snapshot over
`nf` surfaces the underlying `ErrExist` error. -/
theorem dirsnap_write_collision_policy
    (de : Option FsErr) (es : List (String × FsNode)) (nf nd : String)
    (fe : Option FsErr) (fd : List Nat) (de2 : Option FsErr)
    (es2 : List (String × FsNode)) (sub : List (String × Dirs))
    (hf : lookupEntry es nf = some (.file fe fd))
    (hd : lookupEntry es nd = some (.dir de2 es2)) :
    Dirs.Write (.node [(nf, Dirs.nil)]) (.dir de es)
        = (.dir de (setEntry es nf (.file none [])), none) ∧
    Dirs.Write (.node [(nd, Dirs.nil)]) (.dir de es) = (.dir de es, some .isDir) ∧
    Dirs.Write (.node [(nd, Dirs.node [])]) (.dir de es) = (.dir de es, none) ∧
    Dirs.Write (.node [(nf, Dirs.node sub)]) (.dir de es) = (.dir de es, some .exist) := by
  refine ⟨?_, ?_, ?_, ?_⟩
  · simp [Dirs.Write, Dirs.writeEntries, writeEmptyFile, FsNode.writeFile, hf,
      isWriteErrOk, isExistErr]
  · simp [Dirs.Write, Dirs.writeEntries, writeEmptyFile, FsNode.writeFile, hd,
      isWriteErrOk, isExistErr]
  · simp [Dirs.Write, Dirs.writeEntries, FsNode.mkdir1, hd, isWriteErrOk, isExistErr,
      FsNode.lookup, FsNode.isDir, setEntry_self hd]
  · simp [Dirs.Write, Dirs.writeEntries, FsNode.mkdir1, hf, isWriteErrOk, isExistErr,
      FsNode.lookup, FsNode.isDir]

/-- Witness for C2 at a concrete target containing a file `f` and a
directory `d`. -/
theorem dirsnap_write_collision_policy_witness :
    Dirs.Write (.node [("f", Dirs.nil)])
        (.dir none [("f", .file none [1]), ("d", .dir none [])])
      = (.dir none [("f", .file none []), ("d", .dir none [])], none) ∧
    Dirs.Write (.node [("d", Dirs.nil)])
        (.dir none [("f", .file none [1]), ("d", .dir none [])])
      = (.dir none [("f", .file none [1]), ("d", .dir none [])], some .isDir) ∧
    Dirs.Write (.node [("d", Dirs.node [])])
        (.dir none [("f", .file none [1]), ("d", .dir none [])])
      = (.dir none [("f", .file none [1]), ("d", .dir none [])], none) ∧
    Dirs.Write (.node [("f", Dirs.node [("z", Dirs.nil)])])
        (.dir none [("f", .file none [1]), ("d", .dir none [])])
      = (.dir none [("f", .file none [1]), ("d", .dir none [])], some .exist) := by
  have h := dirsnap_write_collision_policy none
    [("f", .file none [1]), ("d", .dir none [])] "f" "d" none [1] none []
    [("z", Dirs.nil)] (by simp [lookupEntry]) (by simp [lookupEntry])
  exact ⟨h.1, h.2.1, h.2.2.1, h.2.2.2⟩

/-- C9. A file-marker entry written over an existing plain file with
non-empty contents succeeds but truncates the file: the target ends up as a
zero-length file. -/
theorem dirsnap_write_truncates_existing_file
    (de : Option FsErr) (es : List (String × FsNode)) (n : String)
    (fe : Option FsErr) (fd : List Nat)
    (hf : lookupEntry es n = some (.file fe fd)) (hfd : fd ≠ []) :
    (Dirs.Write (.node [(n, Dirs.nil)]) (.dir de es)).2 = none ∧
    (Dirs.Write (.node [(n, Dirs.nil)]) (.dir de es)).1.fileAt [n] = some [] := by
  have hw : Dirs.Write (.node [(n, Dirs.nil)]) (.dir de es)
      = (.dir de (setEntry es n (.file none [])), none) := by
    simp [Dirs.Write, Dirs.writeEntries, writeEmptyFile, FsNode.writeFile, hf,
      isWriteErrOk, isExistErr]
  rw [hw]
  refine ⟨rfl, ?_⟩
  simp [FsNode.fileAt, FsNode.lookup, lookupEntry_setEntry _ hf]

/-- Witness for C9: the file `f` holds one byte and is truncated. -/
theorem dirsnap_write_truncates_existing_file_witness :
    (Dirs.Write (.node [("f", Dirs.nil)]) (.dir none [("f", .file none [7])])).2 = none ∧
    (Dirs.Write (.node [("f", Dirs.nil)])
        (.dir none [("f", .file none [7])])).1.fileAt ["f"] = some [] :=
  dirsnap_write_truncates_existing_file none [("f", .file none [7])] "f" none [7]
    (by simp [lookupEntry]) (by simp)

/-- `MkdirAll` never touches existing plain files. -/
theorem mkdirAll_file_frame : ∀ {s : FsNode} {t : FsPath} {s' : FsNode},
    s.mkdirAll t = .ok s' → ∀ {q : FsPath} {a : Option FsErr} {b : List Nat},
    s.lookup q = some (.file a b) → s'.lookup q = some (.file a b) := by
  intro s t
  induction s, t using FsNode.mkdirAll.induct with
  | case1 t re d =>
    intro s' h
    simp [FsNode.mkdirAll] at h
  | case2 re es =>
    intro s' h q a b hq
    simp only [FsNode.mkdirAll] at h
    cases h
    exact hq
  | case3 re es n p c hc c' hok ih =>
    intro s' h q a b hq
    simp only [FsNode.mkdirAll, hc, hok] at h
    cases h
    match q with
    | [] => simp [FsNode.lookup] at hq
    | m :: q' =>
      simp only [FsNode.lookup] at hq ⊢
      by_cases hm : m = n
      · subst hm
        rw [hc] at hq
        rw [lookupEntry_setEntry _ hc]
        exact ih hok hq
      · rw [lookupEntry_setEntry_ne _ (fun hmn => hm hmn)]
        exact hq
  | case4 re es n p c hc e herr ih =>
    intro s' h
    simp [FsNode.mkdirAll, hc, herr] at h
  | case5 re es n p hc c' hok ih =>
    intro s' h q a b hq
    simp only [FsNode.mkdirAll, hc, hok] at h
    cases h
    match q with
    | [] => simp [FsNode.lookup] at hq
    | m :: q' =>
      simp only [FsNode.lookup] at hq ⊢
      by_cases hm : m = n
      · subst hm
        rw [hc] at hq
        simp at hq
      · rw [lookupEntry_append]
        match hme : lookupEntry es m with
        | some c2 => rw [hme] at hq; exact hq
        | none => rw [hme] at hq; simp at hq
  | case6 re es n p hc e herr ih =>
    intro s' h
    simp [FsNode.mkdirAll, hc, herr] at h

/-- `WriteFile` never touches plain files at other paths. -/
theorem writeFile_file_frame : ∀ {s : FsNode} {t : FsPath} {d : List Nat} {s' : FsNode},
    s.writeFile t d = .ok s' → ∀ {q : FsPath} {a : Option FsErr} {b : List Nat},
    s.lookup q = some (.file a b) → q ≠ t → s'.lookup q = some (.file a b) := by
  intro s t d
  induction s, t, d using FsNode.writeFile.induct with
  | case1 t re data x =>
    intro s' h
    simp [FsNode.writeFile] at h
  | case2 re entries x =>
    intro s' h
    simp [FsNode.writeFile] at h
  | case3 re es n data a b hc =>
    intro s' h
    simp [FsNode.writeFile, hc] at h
  | case4 re es n data fe fd hc =>
    intro s' h q a b hq hne
    simp only [FsNode.writeFile, hc] at h
    cases h
    match q with
    | [] => simp [FsNode.lookup] at hq
    | m :: q' =>
      simp only [FsNode.lookup] at hq ⊢
      by_cases hm : m = n
      · subst hm
        rw [hc] at hq
        match q' with
        | [] => exact absurd rfl hne
        | x :: q'' => simp [FsNode.lookup] at hq
      · rw [lookupEntry_setEntry_ne _ (fun hmn => hm hmn)]
        exact hq
  | case5 re es n data hc =>
    intro s' h q a b hq hne
    simp only [FsNode.writeFile, hc] at h
    cases h
    match q with
    | [] => simp [FsNode.lookup] at hq
    | m :: q' =>
      simp only [FsNode.lookup] at hq ⊢
      by_cases hm : m = n
      · subst hm
        rw [hc] at hq
        simp at hq
      · rw [lookupEntry_append]
        match hme : lookupEntry es m with
        | some c2 => rw [hme] at hq; exact hq
        | none => rw [hme] at hq; simp at hq
  | case6 re es n p1 p2 data c hc c' hok ih =>
    intro s' h q a b hq hne
    simp only [FsNode.writeFile, hc, hok] at h
    cases h
    match q with
    | [] => simp [FsNode.lookup] at hq
    | m :: q' =>
      simp only [FsNode.lookup] at hq ⊢
      by_cases hm : m = n
      · subst hm
        rw [hc] at hq
        rw [lookupEntry_setEntry _ hc]
        refine ih hok hq ?_
        intro hq'
        exact hne (by rw [hq'])
      · rw [lookupEntry_setEntry_ne _ (fun hmn => hm hmn)]
        exact hq
  | case7 re es n p1 p2 data c hc e herr ih =>
    intro s' h
    simp [FsNode.writeFile, hc, herr] at h
  | case8 re es n p1 p2 data hc =>
    intro s' h
    simp [FsNode.writeFile, hc] at h

/-- Unfold `isDirAt` one path component at a time. -/
theorem isDirAt_cons (re : Option FsErr) (es : List (String × FsNode))
    (m : String) (q : FsPath) :
    (FsNode.dir re es).isDirAt (m :: q) =
      (match lookupEntry es m with
       | some c => c.isDirAt q
       | none => false) := by
  cases h : lookupEntry es m <;> simp [FsNode.isDirAt, FsNode.lookup, h]

/-- Unfold `fileAt` one path component at a time. -/
theorem fileAt_cons (re : Option FsErr) (es : List (String × FsNode))
    (m : String) (q : FsPath) :
    (FsNode.dir re es).fileAt (m :: q) =
      (match lookupEntry es m with
       | some c => c.fileAt q
       | none => none) := by
  cases h : lookupEntry es m <;> simp [FsNode.fileAt, FsNode.lookup, h]

/-- A successful `MkdirAll` makes directories of exactly the initial
segments of its argument, leaving every other path's directory status
unchanged. -/
theorem mkdirAll_isDirAt : ∀ {s : FsNode} {t : FsPath} {s' : FsNode},
    s.mkdirAll t = .ok s' → ∀ q, s'.isDirAt q = (s.isDirAt q || isInitSeg q t) := by
  intro s t
  induction s, t using FsNode.mkdirAll.induct with
  | case1 t re d =>
    intro s' h
    simp [FsNode.mkdirAll] at h
  | case2 re es =>
    intro s' h q
    simp only [FsNode.mkdirAll] at h
    cases h
    match q with
    | [] => simp [FsNode.isDirAt, FsNode.lookup, FsNode.isDir, isInitSeg]
    | m :: q' => simp [isInitSeg]
  | case3 re es n p c hc c' hok ih =>
    intro s' h q
    simp only [FsNode.mkdirAll, hc, hok] at h
    cases h
    match q with
    | [] => simp [FsNode.isDirAt, FsNode.lookup, FsNode.isDir, isInitSeg]
    | m :: q' =>
      by_cases hm : m = n
      · subst hm
        rw [isDirAt_cons, isDirAt_cons, lookupEntry_setEntry _ hc, hc]
        simp [isInitSeg, ih hok q']
      · rw [isDirAt_cons, isDirAt_cons, lookupEntry_setEntry_ne _ (fun hmn => hm hmn)]
        simp [isInitSeg, hm]
  | case4 re es n p c hc e herr ih =>
    intro s' h
    simp [FsNode.mkdirAll, hc, herr] at h
  | case5 re es n p hc c' hok ih =>
    intro s' h q
    simp only [FsNode.mkdirAll, hc, hok] at h
    cases h
    match q with
    | [] => simp [FsNode.isDirAt, FsNode.lookup, FsNode.isDir, isInitSeg]
    | m :: q' =>
      by_cases hm : m = n
      · subst hm
        rw [isDirAt_cons, isDirAt_cons, lookupEntry_append, hc]
        match q' with
        | [] =>
          have h0 := ih hok []
          simp [FsNode.isDirAt, FsNode.lookup, FsNode.isDir, isInitSeg] at h0
          simp [lookupEntry, FsNode.isDirAt, FsNode.lookup, FsNode.isDir, isInitSeg,
            h0]
        | x :: q'' =>
          simp [lookupEntry, ih hok, isDirAt_cons, isInitSeg]
      · have hnm : ¬(n = m) := fun hnm => hm hnm.symm
        rw [isDirAt_cons, isDirAt_cons, lookupEntry_append]
        cases hme : lookupEntry es m with
        | some c2 => simp [isInitSeg, hm]
        | none => simp [lookupEntry, hnm, isInitSeg, hm]
  | case6 re es n p hc e herr ih =>
    intro s' h
    simp [FsNode.mkdirAll, hc, herr] at h

/-- `WriteFile` does not change the directory status of any path. -/
theorem writeFile_isDirAt : ∀ {s : FsNode} {t : FsPath} {d : List Nat} {s' : FsNode},
    s.writeFile t d = .ok s' → ∀ q, s'.isDirAt q = s.isDirAt q := by
  intro s t d
  induction s, t, d using FsNode.writeFile.induct with
  | case1 t re data x =>
    intro s' h
    simp [FsNode.writeFile] at h
  | case2 re entries x =>
    intro s' h
    simp [FsNode.writeFile] at h
  | case3 re es n data a b hc =>
    intro s' h
    simp [FsNode.writeFile, hc] at h
  | case4 re es n data fe fd hc =>
    intro s' h q
    simp only [FsNode.writeFile, hc] at h
    cases h
    match q with
    | [] => simp [FsNode.isDirAt, FsNode.lookup, FsNode.isDir]
    | m :: q' =>
      by_cases hm : m = n
      · subst hm
        rw [isDirAt_cons, isDirAt_cons, lookupEntry_setEntry _ hc, hc]
        match q' with
        | [] => simp [FsNode.isDirAt, FsNode.lookup, FsNode.isDir]
        | x :: q'' => simp [FsNode.isDirAt, FsNode.lookup]
      · rw [isDirAt_cons, isDirAt_cons, lookupEntry_setEntry_ne _ (fun hmn => hm hmn)]
  | case5 re es n data hc =>
    intro s' h q
    simp only [FsNode.writeFile, hc] at h
    cases h
    match q with
    | [] => simp [FsNode.isDirAt, FsNode.lookup, FsNode.isDir]
    | m :: q' =>
      by_cases hm : m = n
      · subst hm
        rw [isDirAt_cons, isDirAt_cons, lookupEntry_append, hc]
        match q' with
        | [] => simp [lookupEntry, FsNode.isDirAt, FsNode.lookup, FsNode.isDir]
        | x :: q'' => simp [lookupEntry, FsNode.isDirAt, FsNode.lookup]
      · have hnm : ¬(n = m) := fun hnm => hm hnm.symm
        rw [isDirAt_cons, isDirAt_cons, lookupEntry_append]
        cases hme : lookupEntry es m with
        | some c2 => rfl
        | none => simp [lookupEntry, hnm]
  | case6 re es n p1 p2 data c hc c' hok ih =>
    intro s' h q
    simp only [FsNode.writeFile, hc, hok] at h
    cases h
    match q with
    | [] => simp [FsNode.isDirAt, FsNode.lookup, FsNode.isDir]
    | m :: q' =>
      by_cases hm : m = n
      · subst hm
        rw [isDirAt_cons, isDirAt_cons, lookupEntry_setEntry _ hc, hc]
        simp [ih hok q']
      · rw [isDirAt_cons, isDirAt_cons, lookupEntry_setEntry_ne _ (fun hmn => hm hmn)]
  | case7 re es n p1 p2 data c hc e herr ih =>
    intro s' h
    simp [FsNode.writeFile, hc, herr] at h
  | case8 re es n p1 p2 data hc =>
    intro s' h
    simp [FsNode.writeFile, hc] at h

/-- Rewriting a file with the contents it already has (and no injected read
error) is the identity on the state. -/
theorem writeFile_id {s : FsNode} {t : FsPath} {d : List Nat}
    (h : s.lookup t = some (.file none d)) (ht : t ≠ []) : s.writeFile t d = .ok s := by
  induction t generalizing s with
  | nil => exact absurd rfl ht
  | cons n p ih =>
    match s with
    | .file re dd => simp [FsNode.lookup] at h
    | .dir re es =>
      simp only [FsNode.lookup] at h
      match hc : lookupEntry es n with
      | none => rw [hc] at h; simp at h
      | some c =>
        rw [hc] at h
        cases p with
        | nil =>
          simp [FsNode.lookup] at h
          subst h
          simp [FsNode.writeFile, hc, setEntry_self hc]
        | cons p1 p2 =>
          simp [FsNode.writeFile, hc, ih h (by simp), setEntry_self hc]

/-- `MkdirAll` succeeds on a directory as long as no initial segment of the
requested chain is occupied by a plain file. -/
theorem mkdirAll_ok {s : FsNode} {t : FsPath} (hs : s.isDir = true)
    (hnf : ∀ q, isInitSeg q t = true → s.fileAt q = none) :
    ∃ s', s.mkdirAll t = .ok s' := by
  induction t generalizing s with
  | nil =>
    match s with
    | .file re d => simp [FsNode.isDir] at hs
    | .dir re es => exact ⟨.dir re es, by simp [FsNode.mkdirAll]⟩
  | cons n p ih =>
    match s with
    | .file re d => simp [FsNode.isDir] at hs
    | .dir re es =>
      match hc : lookupEntry es n with
      | some (.file fe fd) =>
        have := hnf [n] (by simp [isInitSeg])
        rw [fileAt_cons, hc] at this
        simp [FsNode.fileAt, FsNode.lookup] at this
      | some (.dir de des) =>
        have hsub : ∀ q, isInitSeg q p = true → (FsNode.dir de des).fileAt q = none := by
          intro q hq
          have := hnf (n :: q) (by simp [isInitSeg, hq])
          rwa [fileAt_cons, hc] at this
        obtain ⟨c', hc'⟩ := @ih (.dir de des) rfl hsub
        exact ⟨.dir re (setEntry es n c'), by simp [FsNode.mkdirAll, hc, hc']⟩
      | none =>
        have hsub : ∀ q, isInitSeg q p = true → (FsNode.dir none []).fileAt q = none := by
          intro q hq
          match q with
          | [] => simp [FsNode.fileAt, FsNode.lookup]
          | x :: q' => simp [fileAt_cons, lookupEntry]
        obtain ⟨c', hc'⟩ := @ih (.dir none []) rfl hsub
        exact ⟨.dir re (es ++ [(n, c')]), by simp [FsNode.mkdirAll, hc, hc']⟩

/-- `WriteFile` succeeds in creating a fresh file when the parent directory
exists and nothing occupies the target path. -/
theorem writeFile_create {s : FsNode} {t : FsPath} (d : List Nat)
    {a : Option FsErr} {b : List (String × FsNode)}
    (hpar : s.lookup t.dropLast = some (.dir a b)) (hmiss : s.lookup t = none)
    (ht : t ≠ []) : ∃ s', s.writeFile t d = .ok s' := by
  induction t generalizing s a b with
  | nil => exact absurd rfl ht
  | cons n p ih =>
    cases p with
    | nil =>
      simp [FsNode.lookup] at hpar
      subst hpar
      simp only [FsNode.lookup] at hmiss
      match hc : lookupEntry b n with
      | some c => rw [hc] at hmiss; simp [FsNode.lookup] at hmiss
      | none => exact ⟨.dir a (b ++ [(n, .file none d)]), by simp [FsNode.writeFile, hc]⟩
    | cons p1 p2 =>
      match s with
      | .file re dd => simp [FsNode.lookup] at hpar
      | .dir re es =>
        have hdl : (FsNode.dir re es).lookup (n :: (p1 :: p2).dropLast)
            = some (.dir a b) := by
          simpa using hpar
        simp only [FsNode.lookup] at hdl hmiss
        match hc : lookupEntry es n with
        | none => rw [hc] at hdl; simp at hdl
        | some c =>
          rw [hc] at hdl hmiss
          obtain ⟨c', hc'⟩ := ih hdl hmiss (by simp)
          exact ⟨.dir re (setEntry es n c'), by simp [FsNode.writeFile, hc, hc']⟩

/-- C7. Flat-write collision policy: an entry whose leaf path holds an
existing plain file overwrites it without error; an entry whose leaf path
holds an existing directory makes `Files.Write` return the `EISDIR` error
and leaves that directory in place. -/
theorem filesnap_write_collision_policy (s : FsNode) (p : FsPath) (v : FData) :
    (∀ fe fd, s.lookup p = some (.file fe fd) → p ≠ [] →
      ∃ s', Files.Write [(p, v)] s = (s', none) ∧ s'.fileAt p = some v.bytes) ∧
    (∀ a b, s.lookup p = some (.dir a b) → p ≠ [] →
      Files.Write [(p, v)] s = (s, some .isDir) ∧
      (Files.Write [(p, v)] s).1.isDirAt p = true) := by
  constructor
  · intro fe fd h hp
    obtain ⟨a, b, hpar⟩ := lookup_parent_dir h hp
    obtain ⟨s', hw, hl⟩ := writeFile_overwrite v.bytes h hp
    refine ⟨s', ?_, ?_⟩
    · simp [Files.Write, mkdirAll_id hpar, hw]
    · simp [FsNode.fileAt, hl]
  · intro a b h hp
    obtain ⟨a2, b2, hpar⟩ := lookup_parent_dir h hp
    have hw := writeFile_dir_err v.bytes h hp
    have hr : Files.Write [(p, v)] s = (s, some .isDir) := by
      simp [Files.Write, mkdirAll_id hpar, hw]
    refine ⟨hr, ?_⟩
    rw [hr]
    simp [FsNode.isDirAt, h, FsNode.isDir]

/-- Witness for C7 on a target holding a file `y` and a directory `x`. -/
theorem filesnap_write_collision_policy_witness :
    (∃ s', Files.Write [(["y"], some [9])]
        (.dir none [("x", .dir none []), ("y", .file none [1])]) = (s', none) ∧
      s'.fileAt ["y"] = some [9]) ∧
    Files.Write [(["x"], some [9])]
        (.dir none [("x", .dir none []), ("y", .file none [1])])
      = (.dir none [("x", .dir none []), ("y", .file none [1])], some .isDir) ∧
    (Files.Write [(["x"], some [9])]
        (.dir none [("x", .dir none []), ("y", .file none [1])])).1.isDirAt ["x"]
      = true := by
  have h1 := (filesnap_write_collision_policy
    (.dir none [("x", .dir none []), ("y", .file none [1])]) ["y"] (some [9])).1
    none [1] (by simp [FsNode.lookup, lookupEntry]) (by simp)
  have h2 := (filesnap_write_collision_policy
    (.dir none [("x", .dir none []), ("y", .file none [1])]) ["x"] (some [9])).2
    none [] (by simp [FsNode.lookup, lookupEntry]) (by simp)
  exact ⟨h1, h2.1, h2.2⟩

/-- A sequence of writes whose keys all avoid `p` leaves the plain file at
`p` untouched. -/
theorem filesWrite_keeps_file : ∀ (F : Files) {s s' : FsNode} {p : FsPath}
    {a : Option FsErr} {b : List Nat},
    Files.Write F s = (s', none) → s.lookup p = some (.file a b) →
    (∀ k ∈ F.map (·.1), k ≠ p) → s'.lookup p = some (.file a b) := by
  intro F
  induction F with
  | nil =>
    intro s s' p a b hw hp _
    simp [Files.Write] at hw
    exact hw ▸ hp
  | cons e rest ih =>
    intro s s' p a b hw hp hk
    obtain ⟨q, v⟩ := e
    simp only [Files.Write] at hw
    match hm : s.mkdirAll q.dropLast with
    | .error e2 => simp only [hm] at hw; simp at hw
    | .ok s1 =>
      simp only [hm] at hw
      match hf : s1.writeFile q v.bytes with
      | .error e2 => simp only [hf] at hw; simp at hw
      | .ok s2 =>
        simp only [hf] at hw
        have hp1 := mkdirAll_file_frame hm hp
        have hp2 := writeFile_file_frame hf hp1
          (fun hqp => hk q (by simp) (hqp ▸ rfl))
        exact ih hw hp2 (fun k hkm => hk k (by simp [hkm]))

/-- Writing `(p, nil)` is indistinguishable from writing `(p, [])` anywhere
in a snapshot. -/
theorem filesWrite_nil_eq_empty : ∀ (F1 : Files) (p : FsPath) (F2 : Files) (s : FsNode),
    Files.Write (F1 ++ (p, none) :: F2) s = Files.Write (F1 ++ (p, some []) :: F2) s := by
  intro F1
  induction F1 with
  | nil =>
    intro p F2 s
    simp only [List.nil_append, Files.Write, FData.bytes]
  | cons e rest ih =>
    intro p F2 s
    obtain ⟨q, v⟩ := e
    simp only [List.cons_append, Files.Write]
    match hm : s.mkdirAll q.dropLast with
    | .error e2 => simp only [hm]
    | .ok s1 =>
      simp only [hm]
      match hf : s1.writeFile q v.bytes with
      | .error e2 => simp only [hf]
      | .ok s2 =>
        simp only [hf]
        exact ih p F2 s2

/-- C10. A nil value in a flat snapshot is written exactly like an empty
byte sequence: the whole write is unchanged if the nil is replaced by `[]`,
and when the write succeeds the entry's path holds a zero-length file. -/
theorem filesnap_write_nil_data (F1 F2 : Files) (p : FsPath) (s s' : FsNode)
    (hw : Files.Write (F1 ++ (p, none) :: F2) s = (s', none))
    (hk : ∀ k ∈ F2.map (·.1), k ≠ p) :
    Files.Write (F1 ++ (p, none) :: F2) s = Files.Write (F1 ++ (p, some []) :: F2) s ∧
    s'.fileAt p = some [] := by
  refine ⟨filesWrite_nil_eq_empty F1 p F2 s, ?_⟩
  induction F1 generalizing s with
  | nil =>
    simp only [List.nil_append, Files.Write] at hw
    match hm : s.mkdirAll p.dropLast with
    | .error e2 => simp only [hm] at hw; simp at hw
    | .ok s1 =>
      simp only [hm] at hw
      match hf : s1.writeFile p (FData.bytes none) with
      | .error e2 => simp only [hf] at hw; simp at hw
      | .ok s2 =>
        simp only [hf] at hw
        have h2 : s2.lookup p = some (.file none []) := writeFile_ok_fileAt hf
        have := filesWrite_keeps_file F2 hw h2 hk
        simp [FsNode.fileAt, this]
  | cons e rest ih =>
    obtain ⟨q, v⟩ := e
    simp only [List.cons_append, Files.Write] at hw
    match hm : s.mkdirAll q.dropLast with
    | .error e2 => simp only [hm] at hw; simp at hw
    | .ok s1 =>
      simp only [hm] at hw
      match hf : s1.writeFile q v.bytes with
      | .error e2 => simp only [hf] at hw; simp at hw
      | .ok s2 =>
        simp only [hf] at hw
        exact ih s2 hw

/-- Witness for C10 on an empty target directory. -/
theorem filesnap_write_nil_data_witness :
    Files.Write [(["myFile"], none)] (.dir none [])
      = Files.Write [(["myFile"], some [])] (.dir none []) ∧
    (FsNode.dir none [("myFile", .file none [])]).fileAt ["myFile"] = some [] := by
  have h := filesnap_write_nil_data [] [] ["myFile"] (.dir none [])
    (.dir none [("myFile", .file none [])])
    (by simp [Files.Write, FsNode.mkdirAll, FsNode.writeFile, lookupEntry, FData.bytes])
    (by simp)
  exact ⟨h.1, h.2⟩

/-! ## Flat depth truncation -/

/-- Distinctness of a list of names. -/
def nodupKeys : List String → Bool
  | [] => true
  | x :: xs => !(xs.contains x) && nodupKeys xs

/-- Every file among the entries reads without an injected error. -/
def filesReadable (es : List (String × FsNode)) : Bool :=
  es.all fun e =>
    match e.2 with
    | .file fe _ => fe == none
    | .dir _ _ => true

/-- Association lookup distributes over appended snapshots. -/
theorem alookup_append (F G : Files) (p : FsPath) :
    Files.alookup (F ++ G) p =
      match Files.alookup F p with
      | some v => some v
      | none => Files.alookup G p := by
  induction F with
  | nil => simp [Files.alookup]
  | cons e rest ih =>
    obtain ⟨q, w⟩ := e
    by_cases hq : q = p <;> simp [Files.alookup, hq, ih]

/-- Map assignment with a fresh key appends the binding. -/
theorem insert_of_alookup_none {F : Files} {p : FsPath} (v : FData)
    (h : Files.alookup F p = none) : F.insert p v = F ++ [(p, v)] := by
  induction F with
  | nil => simp [Files.insert]
  | cons e rest ih =>
    obtain ⟨q, w⟩ := e
    by_cases hq : q = p
    · simp [Files.alookup, hq] at h
    · simp [Files.alookup, hq] at h
      simp [Files.insert, hq, ih h]

/-- At depth 0 the flat scanner records exactly the files of the listed
entries (in order, with their contents) and skips every subdirectory without
recording anything for it. -/
theorem readEntries_depth_zero :
    ∀ (es : List (String × FsNode)) (subDir : FsPath) (acc : Files),
    nodupKeys (es.map (·.1)) = true → filesReadable es = true →
    (∀ e ∈ es, Files.alookup acc (subDir ++ [e.1]) = none) →
    Files.readEntries es subDir 0 acc =
      (acc ++ es.filterMap (fun e =>
        match e.2 with
        | .file _ d => some (subDir ++ [e.1], some d)
        | .dir _ _ => none), none) := by
  intro es
  induction es with
  | nil =>
    intro subDir acc _ _ _
    simp [Files.readEntries]
  | cons e rest ih =>
    intro subDir acc h1 h2 hfresh
    obtain ⟨en, c⟩ := e
    have h1' : nodupKeys (rest.map (·.1)) = true := by
      simp only [List.map_cons, nodupKeys, Bool.and_eq_true] at h1
      exact h1.2
    have h1h : ∀ e2 ∈ rest, e2.1 ≠ en := by
      intro e2 he2 hc
      simp only [List.map_cons, nodupKeys, Bool.and_eq_true] at h1
      have hmem : en ∈ rest.map (·.1) := hc ▸ List.mem_map_of_mem _ he2
      have := h1.1
      rw [Bool.not_eq_true'] at this
      simp [List.contains, List.elem_eq_mem, hmem] at this
    have h2' : filesReadable rest = true := by
      simp only [filesReadable, List.all_cons, Bool.and_eq_true] at h2
      exact h2.2
    match c with
    | .file fe fd =>
      have hfe : fe = none := by
        simp only [filesReadable, List.all_cons, Bool.and_eq_true] at h2
        simpa using h2.1
      subst hfe
      have hins := insert_of_alookup_none (some fd)
        (hfresh (en, .file none fd) (by simp))
      have hrest : Files.readEntries rest subDir 0
          (acc ++ [(subDir ++ [en], some fd)]) =
          ((acc ++ [(subDir ++ [en], some fd)]) ++ rest.filterMap (fun e =>
            match e.2 with
            | .file _ d => some (subDir ++ [e.1], some d)
            | .dir _ _ => none), none) := by
        refine ih subDir _ h1' h2' ?_
        intro e2 he2
        rw [alookup_append, hfresh e2 (by simp [he2])]
        have hne : ¬(subDir ++ [en] = subDir ++ [e2.1]) := by
          intro hc
          exact h1h e2 he2 (by simpa using hc.symm)
        simp [Files.alookup, hne]
      simp only [Files.readEntries, hins]
      simp only [ne_eq, not_true_eq_false, false_and, if_false, hrest]
      simp [List.filterMap]
    | .dir de des =>
      have hrest : Files.readEntries rest subDir 0 acc =
          (acc ++ rest.filterMap (fun e =>
            match e.2 with
            | .file _ d => some (subDir ++ [e.1], some d)
            | .dir _ _ => none), none) := by
        refine ih subDir _ h1' h2' ?_
        intro e2 he2
        exact hfresh e2 (by simp [he2])
      simp only [Files.readEntries]
      simp [hrest]

/-- C6. Flat depth truncation: scanning any directory with depth 0 returns
exactly the files directly in it, with their contents; nothing at all is
recorded for subdirectories or anything below them. -/
theorem filesnap_depth_zero (es : List (String × FsNode))
    (h1 : nodupKeys (es.map (·.1)) = true) (h2 : filesReadable es = true) :
    filesnap.ReadFS (.dir none es) [] 0 =
      (es.filterMap (fun e =>
        match e.2 with
        | .file _ d => some ([e.1], some d)
        | .dir _ _ => none), none) := by
  have h := readEntries_depth_zero es [] [] h1 h2 (by intro e _; simp [Files.alookup])
  simp only [filesnap.ReadFS, FsNode.lookup, Files.readFS]
  simpa using h

/-- Witness for C6: a root with one file and one populated subdirectory. -/
theorem filesnap_depth_zero_witness :
    filesnap.ReadFS
        (.dir none [("a", .file none [1]), ("sub", .dir none [("z", .file none [2])])])
        [] 0
      = ([(["a"], some [1])], none) := by
  have h := filesnap_depth_zero
    [("a", .file none [1]), ("sub", .dir none [("z", .file none [2])])]
    (by simp [nodupKeys]) (by simp [filesReadable])
  simpa using h

/-! ## Stepping lemmas for the scanners -/

/-- A file entry contributes a `nil` marker and the loop continues. -/
theorem scanEntries_cons_file {c : FsNode} (hc : ¬(c.isDir = true))
    (m : String) (rest : List (String × FsNode)) (n : Int) :
    dirsnap.scanEntries ((m, c) :: rest) n =
      ((m, Dirs.nil) :: (dirsnap.scanEntries rest n).1,
        (dirsnap.scanEntries rest n).2) := by
  simp [dirsnap.scanEntries, hc]

/-- At the depth cutoff a directory entry contributes an empty snapshot. -/
theorem scanEntries_cons_dir0 {c : FsNode} (hc : c.isDir = true)
    (m : String) (rest : List (String × FsNode)) :
    dirsnap.scanEntries ((m, c) :: rest) 0 =
      ((m, Dirs.node []) :: (dirsnap.scanEntries rest 0).1,
        (dirsnap.scanEntries rest 0).2) := by
  simp [dirsnap.scanEntries, hc]

/-- A cleanly scanned subdirectory contributes its snapshot and the loop
continues. -/
theorem scanEntries_cons_dir_ok {c : FsNode} {n : Int} (hc : c.isDir = true)
    (hn : ¬(n == 0) = true) (hok : (dirsnap.scanFs c (n - 1)).2 = none)
    (m : String) (rest : List (String × FsNode)) :
    dirsnap.scanEntries ((m, c) :: rest) n =
      ((m, (dirsnap.scanFs c (n - 1)).1) :: (dirsnap.scanEntries rest n).1,
        (dirsnap.scanEntries rest n).2) := by
  rcases hp : dirsnap.scanFs c (n - 1) with ⟨sub, serr⟩
  rw [hp] at hok
  simp only at hok
  subst hok
  simp [dirsnap.scanEntries, hc, hn, hp]

/-- A subdirectory whose scan fails aborts the loop with the snapshot built
so far (the failing entry included) and the error. -/
theorem scanEntries_cons_dir_err {c : FsNode} {n : Int} {e : FsErr}
    (hc : c.isDir = true) (hn : ¬(n == 0) = true)
    (he : (dirsnap.scanFs c (n - 1)).2 = some e)
    (m : String) (rest : List (String × FsNode)) :
    dirsnap.scanEntries ((m, c) :: rest) n =
      ([(m, (dirsnap.scanFs c (n - 1)).1)], some e) := by
  rcases hp : dirsnap.scanFs c (n - 1) with ⟨sub, serr⟩
  rw [hp] at he
  simp only at he
  subst he
  simp [dirsnap.scanEntries, hc, hn, hp]

/-- C4 (tree half, proved as a lemma): if the entries `es1` scan cleanly and
the subdirectory entry `(en, c)` fails, the whole loop returns the `es1`
results followed by the failing entry's partial snapshot, together with that
error, and never examines `es2`. -/
theorem dirsnap_scan_abort (es1 es2 : List (String × FsNode)) (en : String)
    (c : FsNode) (n : Int) (e : FsErr)
    (h1 : (dirsnap.scanEntries es1 n).2 = none)
    (hc : c.isDir = true) (hn : ¬(n == 0) = true)
    (he : (dirsnap.scanFs c (n - 1)).2 = some e) :
    dirsnap.scanEntries (es1 ++ (en, c) :: es2) n =
      ((dirsnap.scanEntries es1 n).1 ++ [(en, (dirsnap.scanFs c (n - 1)).1)],
        some e) := by
  induction es1 with
  | nil =>
    rw [List.nil_append, scanEntries_cons_dir_err hc hn he]
    simp [dirsnap.scanEntries]
  | cons e1 rest ih =>
    obtain ⟨m, cm⟩ := e1
    by_cases hcm : cm.isDir = true
    · by_cases hn0 : (n == 0) = true
      · have h0 : n = 0 := by simpa using hn0
        exact absurd hn0 (h0 ▸ hn)
      · rcases hsm : dirsnap.scanFs cm (n - 1) with ⟨subm, serrm⟩
        match serrm with
        | some em =>
          rw [scanEntries_cons_dir_err hcm hn0 (by rw [hsm]) m rest] at h1
          simp at h1
        | none =>
          rw [scanEntries_cons_dir_ok hcm hn0 (by rw [hsm]) m rest] at h1 ⊢
          rw [List.cons_append, scanEntries_cons_dir_ok hcm hn0 (by rw [hsm]) m]
          rw [ih h1]
          simp
    · rw [scanEntries_cons_file hcm m rest] at h1 ⊢
      rw [List.cons_append, scanEntries_cons_file hcm m]
      rw [ih h1]
      simp

/-- A readable file entry stores its contents and the loop continues. -/
theorem readEntries_cons_file_ok {fe : Option FsErr}
    (hfe : ¬(fe ≠ none ∧ fe ≠ some FsErr.eof)) (m : String) (fd : List Nat)
    (rest : List (String × FsNode)) (subDir : FsPath) (n : Int) (acc : Files) :
    Files.readEntries ((m, .file fe fd) :: rest) subDir n acc =
      Files.readEntries rest subDir n (acc.insert (subDir ++ [m]) (some fd)) := by
  simp only [Files.readEntries, if_neg hfe]

/-- A cleanly scanned subdirectory extends the accumulator and the loop
continues. -/
theorem readEntries_cons_dir_ok {n : Int} {acc acc1 : Files}
    {de : Option FsErr} {des : List (String × FsNode)} {subDir : FsPath}
    (hn : n ≠ 0) (m : String)
    (hok : Files.readFS (.dir de des) (subDir ++ [m]) (n - 1) acc = (acc1, none))
    (rest : List (String × FsNode)) :
    Files.readEntries ((m, .dir de des) :: rest) subDir n acc =
      Files.readEntries rest subDir n acc1 := by
  simp only [Files.readEntries, if_pos hn, hok]

/-- A subdirectory whose scan fails aborts the loop with the accumulator
gathered so far and the error. -/
theorem readEntries_cons_dir_err {n : Int} {acc acc1 : Files} {e : FsErr}
    {de : Option FsErr} {des : List (String × FsNode)} {subDir : FsPath}
    (hn : n ≠ 0) (m : String)
    (he : Files.readFS (.dir de des) (subDir ++ [m]) (n - 1) acc = (acc1, some e))
    (rest : List (String × FsNode)) :
    Files.readEntries ((m, .dir de des) :: rest) subDir n acc = (acc1, some e) := by
  simp only [Files.readEntries, if_pos hn, he]

/-- C4 (flat half, proved as a lemma): if the entries `es1` scan cleanly
into the accumulator and the subdirectory entry `(en, c)` then fails, the
whole loop returns exactly the partial snapshot of the failing scan and its
error, and never examines `es2`. -/
theorem filesnap_scan_abort : ∀ (es1 : List (String × FsNode)) (acc : Files)
    (es2 : List (String × FsNode)) (en : String) (de : Option FsErr)
    (des : List (String × FsNode)) (subDir : FsPath) (n : Int) (acc2 : Files)
    (e : FsErr),
    (Files.readEntries es1 subDir n acc).2 = none → n ≠ 0 →
    Files.readFS (.dir de des) (subDir ++ [en]) (n - 1)
        (Files.readEntries es1 subDir n acc).1 = (acc2, some e) →
    Files.readEntries (es1 ++ (en, .dir de des) :: es2) subDir n acc =
      (acc2, some e) := by
  intro es1
  induction es1 with
  | nil =>
    intro acc es2 en de des subDir n acc2 e h1 hn he
    simp only [Files.readEntries] at he
    rw [List.nil_append]
    exact readEntries_cons_dir_err hn en he es2
  | cons e1 rest ih =>
    intro acc es2 en de des subDir n acc2 e h1 hn he
    obtain ⟨m, cm⟩ := e1
    match cm with
    | .file mfe mfd =>
      by_cases hfe : mfe ≠ none ∧ mfe ≠ some FsErr.eof
      · rw [show Files.readEntries ((m, .file mfe mfd) :: rest) subDir n acc
            = (acc.insert (subDir ++ [m]) (some mfd), mfe) from by
              simp only [Files.readEntries, if_pos hfe]] at h1
        rcases hfe with ⟨hfe1, _⟩
        exact absurd h1 hfe1
      · rw [readEntries_cons_file_ok hfe m mfd rest subDir n acc] at h1 he
        rw [List.cons_append,
          readEntries_cons_file_ok hfe m mfd (rest ++ (en, FsNode.dir de des) :: es2)
            subDir n acc]
        exact ih _ es2 en de des subDir n acc2 e h1 hn he
    | .dir mde mdes =>
      rcases hsm : Files.readFS (.dir mde mdes) (subDir ++ [m]) (n - 1) acc
        with ⟨accm, serrm⟩
      match serrm with
      | some em =>
        rw [readEntries_cons_dir_err hn m hsm rest] at h1
        simp at h1
      | none =>
        rw [readEntries_cons_dir_ok hn m hsm rest] at h1 he
        rw [List.cons_append,
          readEntries_cons_dir_ok hn m hsm (rest ++ (en, FsNode.dir de des) :: es2)]
        exact ih _ es2 en de des subDir n acc2 e h1 hn he

/-- Below the depth cutoff a subdirectory entry is skipped and the loop
continues with the same accumulator. -/
theorem readEntries_cons_dir_skip {acc : Files} {de : Option FsErr}
    {des : List (String × FsNode)} {subDir : FsPath} (m : String)
    (rest : List (String × FsNode)) :
    Files.readEntries ((m, .dir de des) :: rest) subDir 0 acc =
      Files.readEntries rest subDir 0 acc := by
  simp [Files.readEntries]

/-- C4 (flat half for a failing file read, proved as a lemma): if the
entries `es1` scan cleanly into the accumulator and reading the file entry
`(en, ⋯)` then reports an unresolved error, the loop records that file's
payload, aborts with the accumulator gathered so far and the read error,
and never examines `es2` (filesnap.go lines 86-89: `f[sp] = data` happens
before the error check). -/
theorem filesnap_scan_abort_file : ∀ (es1 : List (String × FsNode)) (acc : Files)
    (es2 : List (String × FsNode)) (en : String) (fe : Option FsErr)
    (fd : List Nat) (subDir : FsPath) (n : Int),
    (Files.readEntries es1 subDir n acc).2 = none →
    fe ≠ none → fe ≠ some FsErr.eof →
    Files.readEntries (es1 ++ (en, .file fe fd) :: es2) subDir n acc =
      ((Files.readEntries es1 subDir n acc).1.insert (subDir ++ [en]) (some fd),
        fe) := by
  intro es1
  induction es1 with
  | nil =>
    intro acc es2 en fe fd subDir n h1 hne heof
    rw [List.nil_append]
    simp only [Files.readEntries, if_pos (And.intro hne heof)]
  | cons e1 rest ih =>
    intro acc es2 en fe fd subDir n h1 hne heof
    obtain ⟨m, cm⟩ := e1
    match cm with
    | .file mfe mfd =>
      by_cases hfe : mfe ≠ none ∧ mfe ≠ some FsErr.eof
      · rw [show Files.readEntries ((m, .file mfe mfd) :: rest) subDir n acc
            = (acc.insert (subDir ++ [m]) (some mfd), mfe) from by
              simp only [Files.readEntries, if_pos hfe]] at h1
        rcases hfe with ⟨hfe1, _⟩
        exact absurd h1 hfe1
      · rw [readEntries_cons_file_ok hfe m mfd rest subDir n acc] at h1 ⊢
        rw [List.cons_append,
          readEntries_cons_file_ok hfe m mfd (rest ++ (en, FsNode.file fe fd) :: es2)
            subDir n acc]
        exact ih _ es2 en fe fd subDir n h1 hne heof
    | .dir mde mdes =>
      by_cases hn0 : n = 0
      · subst hn0
        rw [readEntries_cons_dir_skip m rest] at h1 ⊢
        rw [List.cons_append,
          readEntries_cons_dir_skip m (rest ++ (en, FsNode.file fe fd) :: es2)]
        exact ih _ es2 en fe fd subDir 0 h1 hne heof
      · rcases hsm : Files.readFS (.dir mde mdes) (subDir ++ [m]) (n - 1) acc
          with ⟨accm, serrm⟩
        match serrm with
        | some em =>
          rw [readEntries_cons_dir_err hn0 m hsm rest] at h1
          simp at h1
        | none =>
          rw [readEntries_cons_dir_ok hn0 m hsm rest] at h1 ⊢
          rw [List.cons_append,
            readEntries_cons_dir_ok hn0 m hsm (rest ++ (en, FsNode.file fe fd) :: es2)]
          exact ih _ es2 en fe fd subDir n h1 hne heof

/-- C4. Partial results on scan error: in both packages, once an entry of
the directory listing fails to scan — a subdirectory whose listing fails,
or (in the flat scanner) a file whose read fails at the current level —
the loop aborts at that first error, returning it to the caller together
with everything gathered before the failure (the clean results of the
earlier entries, plus the failing scan's partial snapshot, or the failing
file's payload); the remaining entries are never examined. -/
theorem fsnap_scan_error_keeps_gathered
    (es1 es2 : List (String × FsNode)) (en : String) (c : FsNode) (n : Int)
    (e : FsErr) (de : Option FsErr) (des : List (String × FsNode))
    (subDir : FsPath) (acc acc2 : Files) (m : Int)
    (fe2 : Option FsErr) (fd2 : List Nat) :
    ((dirsnap.scanEntries es1 n).2 = none → c.isDir = true → ¬(n == 0) = true →
      (dirsnap.scanFs c (n - 1)).2 = some e →
      dirsnap.scanEntries (es1 ++ (en, c) :: es2) n =
        ((dirsnap.scanEntries es1 n).1 ++ [(en, (dirsnap.scanFs c (n - 1)).1)],
          some e)) ∧
    ((Files.readEntries es1 subDir m acc).2 = none → m ≠ 0 →
      Files.readFS (.dir de des) (subDir ++ [en]) (m - 1)
          (Files.readEntries es1 subDir m acc).1 = (acc2, some e) →
      Files.readEntries (es1 ++ (en, .dir de des) :: es2) subDir m acc =
        (acc2, some e)) ∧
    ((Files.readEntries es1 subDir m acc).2 = none →
      fe2 ≠ none → fe2 ≠ some FsErr.eof →
      Files.readEntries (es1 ++ (en, .file fe2 fd2) :: es2) subDir m acc =
        ((Files.readEntries es1 subDir m acc).1.insert (subDir ++ [en]) (some fd2),
          fe2)) :=
  ⟨fun h1 hc hn he => dirsnap_scan_abort es1 es2 en c n e h1 hc hn he,
   fun h1 hn he => filesnap_scan_abort es1 acc es2 en de des subDir m acc2 e h1 hn he,
   fun h1 hne heof =>
     filesnap_scan_abort_file es1 acc es2 en fe2 fd2 subDir m h1 hne heof⟩

/-- Witness for C4: a clean file entry, then a failing entry — a directory
whose listing reports a permission-style failure, or (flat scanner) a file
whose read fails — then an entry that is dropped. -/
theorem fsnap_scan_error_keeps_gathered_witness :
    dirsnap.scanEntries
        [("a", .file none []), ("b", .dir (some .notExist) []),
         ("c", .file none [])] (-1)
      = ([("a", Dirs.nil), ("b", Dirs.nil)], some .notExist) ∧
    Files.readEntries
        [("a", .file none [1]), ("b", .dir (some .notExist) [("z", .file none [2])]),
         ("c", .file none [3])] [] (-1) []
      = ([(["a"], some [1])], some .notExist) ∧
    Files.readEntries
        [("a", .file none [1]), ("b", .file (some .notExist) [5]),
         ("c", .file none [3])] [] (-1) []
      = ([(["a"], some [1]), (["b"], some [5])], some .notExist) := by
  have h := fsnap_scan_error_keeps_gathered
    [("a", .file none [1])] [("c", .file none [3])] "b"
    (.dir (some .notExist) []) (-1) .notExist (some .notExist)
    [("z", .file none [2])] [] [] [(["a"], some [1])] (-1)
    (some .notExist) [5]
  have hd := h.1 (by simp [dirsnap.scanEntries, FsNode.isDir])
    (by simp [FsNode.isDir]) (by simp)
    (by simp [dirsnap.scanFs, dirsnap.scanEntries])
  have hf := h.2.1 (by simp [Files.readEntries, Files.insert, FsNode.isDir])
    (by simp)
    (by simp [Files.readEntries, Files.insert, Files.readFS, FsNode.isDir])
  have hf2 := h.2.2 (by simp [Files.readEntries, Files.insert, FsNode.isDir])
    (by simp) (by simp)
  refine ⟨?_, ?_, ?_⟩
  · have h2 : dirsnap.scanEntries
        [("a", FsNode.file none [1])] (-1) = ([("a", Dirs.nil)], none) := by
      simp [dirsnap.scanEntries, FsNode.isDir]
    rw [h2] at hd
    simpa [dirsnap.scanFs, dirsnap.scanEntries, h2] using hd
  · simpa [Files.readEntries, Files.insert, FsNode.isDir] using hf
  · simpa [Files.readEntries, Files.insert, FsNode.isDir] using hf2

/-! ## Path-segment lemmas -/

/-- Every path is an initial segment of itself. -/
theorem isInitSeg_refl (p : FsPath) : isInitSeg p p = true := by
  induction p with
  | nil => simp [isInitSeg]
  | cons a as ih => simp [isInitSeg, ih]

/-- Cancelling a common leading part. -/
theorem isInitSeg_append_left (pre a b : FsPath) :
    isInitSeg (pre ++ a) (pre ++ b) = isInitSeg a b := by
  induction pre with
  | nil => simp
  | cons x xs ih => simp [isInitSeg, ih]

/-- A path whose extension leads into `k` leads into `k` itself. -/
theorem isInitSeg_of_append {a b k : FsPath}
    (h : isInitSeg (a ++ b) k = true) : isInitSeg a k = true := by
  induction a generalizing k with
  | nil => simp [isInitSeg]
  | cons x xs ih =>
    match k with
    | [] => simp [isInitSeg] at h
    | y :: ys =>
      simp only [List.cons_append, isInitSeg, Bool.and_eq_true] at h ⊢
      exact ⟨h.1, ih h.2⟩

/-- Initial segments are no longer than the whole. -/
theorem isInitSeg_length {a b : FsPath} (h : isInitSeg a b = true) :
    a.length ≤ b.length := by
  induction a generalizing b with
  | nil => simp
  | cons x xs ih =>
    match b with
    | [] => simp [isInitSeg] at h
    | y :: ys =>
      simp only [isInitSeg, Bool.and_eq_true] at h
      simpa using ih h.2

/-- Chaining initial segments. -/
theorem isInitSeg_trans {a b c : FsPath} (h1 : isInitSeg a b = true)
    (h2 : isInitSeg b c = true) : isInitSeg a c = true := by
  induction a generalizing b c with
  | nil => simp [isInitSeg]
  | cons x xs ih =>
    match b with
    | [] => simp [isInitSeg] at h1
    | y :: ys =>
      match c with
      | [] => simp [isInitSeg] at h2
      | z :: zs =>
        simp only [isInitSeg, Bool.and_eq_true, beq_iff_eq] at h1 h2 ⊢
        exact ⟨h1.1.trans h2.1, ih h1.2 h2.2⟩

/-- A path leads into itself with the last component removed only if it is
empty. -/
theorem isInitSeg_dropLast_self {p : FsPath} (hp : p ≠ []) :
    isInitSeg p p.dropLast = false := by
  by_contra h
  rw [Bool.not_eq_false] at h
  have h1 := isInitSeg_length h
  have h2 : p.dropLast.length = p.length - 1 := List.length_dropLast p
  have h3 : 0 < p.length := List.length_pos.mpr hp
  omega

/-- The parent path is an initial segment of the path. -/
theorem isInitSeg_dropLast (p : FsPath) : isInitSeg p.dropLast p = true := by
  induction p with
  | nil => simp [isInitSeg]
  | cons x xs ih =>
    match xs with
    | [] => simp [isInitSeg]
    | y :: ys => simpa [isInitSeg] using ih

/-- Two initial segments of each other in a no-collision key list are the
same key. -/
theorem noInitPairs_eq {ks : List FsPath} (h : noInitPairs ks = true)
    {a b : FsPath} (ha : a ∈ ks) (hb : b ∈ ks) (hab : isInitSeg a b = true) :
    a = b := by
  induction ks with
  | nil => simp at ha
  | cons k rest ih =>
    simp only [noInitPairs, Bool.and_eq_true, List.all_eq_true] at h
    rcases List.mem_cons.mp ha with ha1 | ha1 <;>
      rcases List.mem_cons.mp hb with hb1 | hb1
    · rw [ha1, hb1]
    · subst ha1
      have := h.1 b hb1
      simp only [Bool.and_eq_true, Bool.not_eq_true'] at this
      rw [this.1] at hab
      exact absurd hab (by simp)
    · subst hb1
      have := h.1 a ha1
      simp only [Bool.and_eq_true, Bool.not_eq_true'] at this
      rw [this.2] at hab
      exact absurd hab (by simp)
    · exact ih h.2 ha1 hb1

/-- A no-collision key list has no duplicates. -/
theorem noInitPairs_nodup {ks : List FsPath} (h : noInitPairs ks = true) :
    ks.Nodup := by
  induction ks with
  | nil => simp
  | cons k rest ih =>
    simp only [noInitPairs, Bool.and_eq_true, List.all_eq_true] at h
    refine List.nodup_cons.mpr ⟨?_, ih h.2⟩
    intro hk
    have := h.1 k hk
    simp only [Bool.and_eq_true, Bool.not_eq_true'] at this
    rw [isInitSeg_refl] at this
    exact absurd this.1 (by simp)

/-- Dropping the head of a no-collision key list. -/
theorem noInitPairs_tail {k : FsPath} {ks : List FsPath}
    (h : noInitPairs (k :: ks) = true) : noInitPairs ks = true := by
  simp only [noInitPairs, Bool.and_eq_true] at h
  exact h.2

/-! ## Association-list bookkeeping -/

/-- A key absent from a snapshot has no association. -/
theorem alookup_none_of_forall_ne {F : Files} {p : FsPath}
    (h : ∀ k ∈ F.map (·.1), k ≠ p) : Files.alookup F p = none := by
  induction F with
  | nil => simp [Files.alookup]
  | cons e rest ih =>
    have hne : e.1 ≠ p := h e.1 (by simp)
    obtain ⟨q, w⟩ := e
    simp only [Files.alookup, if_neg hne]
    exact ih fun k hk => h k (by simp [hk])

/-- A key with an association is one of the snapshot's keys. -/
theorem mem_of_alookup_some {F : Files} {p : FsPath} {v : FData}
    (h : Files.alookup F p = some v) : p ∈ F.map (·.1) := by
  induction F with
  | nil => simp [Files.alookup] at h
  | cons e rest ih =>
    obtain ⟨q, w⟩ := e
    by_cases hq : q = p
    · simp [hq]
    · simp only [Files.alookup, if_neg hq] at h
      simp [ih h]

/-- A name without an entry is not among the entry names. -/
theorem lookupEntry_none_iff {es : List (String × FsNode)} {n : String} :
    lookupEntry es n = none ↔ n ∉ es.map (·.1) := by
  induction es with
  | nil => simp [lookupEntry]
  | cons e rest ih =>
    obtain ⟨m, c⟩ := e
    by_cases hm : m = n
    · simp [lookupEntry, hm]
    · have hnm : ¬(n = m) := fun h => hm h.symm
      simp [lookupEntry, hm, ih, hnm]

/-- Keys after a map assignment come from the old keys or are the new key. -/
theorem keys_insert_subset {F : Files} {p k : FsPath} {v : FData}
    (h : k ∈ (F.insert p v).map (·.1)) : k ∈ F.map (·.1) ∨ k = p := by
  induction F with
  | nil => simpa [Files.insert] using h
  | cons e rest ih =>
    obtain ⟨q, w⟩ := e
    by_cases hq : q = p
    · simp only [Files.insert, if_pos hq] at h
      simp only [List.map_cons, List.mem_cons] at h
      rcases h with h | h
      · exact Or.inl (by simp [h])
      · exact Or.inl (by simp; right; simpa using h)
    · simp only [Files.insert, if_neg hq] at h
      simp only [List.map_cons, List.mem_cons] at h
      rcases h with h | h
      · simp [h]
      · rcases ih h with h2 | h2
        · simp [h2]
        · simp [h2]

/-- Map assignment keeps keys duplicate-free. -/
theorem insert_nodup {F : Files} {p : FsPath} (v : FData)
    (h : (F.map (·.1)).Nodup) : ((F.insert p v).map (·.1)).Nodup := by
  induction F with
  | nil => simp [Files.insert]
  | cons e rest ih =>
    obtain ⟨q, w⟩ := e
    simp only [List.map_cons, List.nodup_cons] at h
    by_cases hq : q = p
    · simp only [Files.insert, if_pos hq, List.map_cons, List.nodup_cons]
      exact ⟨h.1, h.2⟩
    · simp only [Files.insert, if_neg hq, List.map_cons, List.nodup_cons]
      refine ⟨?_, ih h.2⟩
      intro hk
      rcases keys_insert_subset hk with h2 | h2
      · exact h.1 h2
      · exact hq h2

/-- The flat scanner only ever assigns into its map, so its result's keys
stay duplicate-free. -/
theorem readFS_nodup : ∀ {s : FsNode} {pre : FsPath} {n : Int} {acc : Files},
    (acc.map (·.1)).Nodup → ((Files.readFS s pre n acc).1.map (·.1)).Nodup := by
  intro s pre n acc
  refine Files.readFS.induct
    (fun s pre n acc => (acc.map (·.1)).Nodup →
      ((Files.readFS s pre n acc).1.map (·.1)).Nodup)
    (fun es pre n acc => (acc.map (·.1)).Nodup →
      ((Files.readEntries es pre n acc).1.map (·.1)).Nodup)
    ?_ ?_ ?_ ?_ ?_ ?_ ?_ ?_ ?_ s pre n acc
  · intro re data pre n acc h
    simpa [Files.readFS] using h
  · intro re es pre n acc hg h
    simpa [Files.readFS, if_pos hg] using h
  · intro re es pre n acc hg ih h
    simpa [Files.readFS, if_neg hg] using ih h
  · intro pre n acc h
    simpa [Files.readEntries] using h
  · intro en fe fd rest pre n acc hg h
    simp only [Files.readEntries, if_pos hg]
    exact insert_nodup _ h
  · intro en fe fd rest pre n acc acc1 hg ih h
    simp only [Files.readEntries, if_neg hg]
    exact ih (insert_nodup _ h)
  · intro en de des rest pre n acc hn acc1 e heq ih h
    simp only [Files.readEntries, if_pos hn, heq]
    have := ih h
    rwa [heq] at this
  · intro en de des rest pre n acc hn acc1 heq ih1 ih2 h
    simp only [Files.readEntries, if_pos hn, heq]
    have := ih1 h
    rw [heq] at this
    exact ih2 this
  · intro en de des rest pre n acc hn ih h
    simpa [Files.readEntries, hn] using ih h

/-! ## Preservation of filesystem health -/

/-- `setEntry` keeps the listed names. -/
theorem setEntry_map_fst (es : List (String × FsNode)) (n : String) (v : FsNode) :
    (setEntry es n v).map (·.1) = es.map (·.1) := by
  induction es with
  | nil => simp [setEntry]
  | cons e rest ih =>
    obtain ⟨m, c⟩ := e
    by_cases hm : m = n <;> simp [setEntry, hm, ih]

/-- Replacing an entry with a healthy node keeps the entry list healthy. -/
theorem fsOkEntries_setEntry {es : List (String × FsNode)} {n : String}
    {v : FsNode} (h : fsOkEntries es = true) (hv : v.fsOk = true) :
    fsOkEntries (setEntry es n v) = true := by
  induction es with
  | nil => simpa [setEntry] using h
  | cons e rest ih =>
    obtain ⟨m, c⟩ := e
    simp only [fsOkEntries, Bool.and_eq_true] at h
    by_cases hm : m = n
    · simp only [setEntry, if_pos hm, fsOkEntries, Bool.and_eq_true]
      exact ⟨⟨hv, h.1.2⟩, h.2⟩
    · simp only [setEntry, if_neg hm, fsOkEntries, Bool.and_eq_true,
        setEntry_map_fst]
      exact ⟨⟨h.1.1, h.1.2⟩, ih h.2⟩

/-- Appending a fresh healthy entry keeps the entry list healthy. -/
theorem fsOkEntries_append_one {es : List (String × FsNode)} {n : String}
    {v : FsNode} (h : fsOkEntries es = true) (hn : lookupEntry es n = none)
    (hv : v.fsOk = true) : fsOkEntries (es ++ [(n, v)]) = true := by
  induction es with
  | nil => simp [fsOkEntries, hv]
  | cons e rest ih =>
    obtain ⟨m, c⟩ := e
    simp only [fsOkEntries, Bool.and_eq_true] at h
    simp only [lookupEntry] at hn
    by_cases hm : m = n
    · rw [if_pos hm] at hn
      simp at hn
    · rw [if_neg hm] at hn
      simp only [List.cons_append, fsOkEntries, Bool.and_eq_true, List.map_append]
      refine ⟨⟨h.1.1, ?_⟩, ih h.2 hn⟩
      have hmem : m ∉ rest.map (·.1) := by simpa using h.1.2
      have hout : m ∉ (rest.map (·.1)) ++ [n] := by
        simp only [List.mem_append, List.mem_singleton]
        rintro (hc | hc)
        · exact hmem hc
        · exact hm hc
      simpa using hout

/-- A successful `WriteFile` keeps the filesystem healthy. -/
theorem writeFile_fsOk : ∀ {s : FsNode} {t : FsPath} {d : List Nat} {s' : FsNode},
    s.writeFile t d = .ok s' → s.fsOk = true → s'.fsOk = true := by
  intro s t d
  induction s, t, d using FsNode.writeFile.induct with
  | case1 t re data x => intro s' h; simp [FsNode.writeFile] at h
  | case2 re entries x => intro s' h; simp [FsNode.writeFile] at h
  | case3 re es n data a b hc => intro s' h; simp [FsNode.writeFile, hc] at h
  | case4 re es n data fe fd hc =>
    intro s' h hok
    simp only [FsNode.writeFile, hc] at h
    cases h
    simp only [FsNode.fsOk, Bool.and_eq_true] at hok ⊢
    exact ⟨hok.1, fsOkEntries_setEntry hok.2 (by simp [FsNode.fsOk])⟩
  | case5 re es n data hc =>
    intro s' h hok
    simp only [FsNode.writeFile, hc] at h
    cases h
    simp only [FsNode.fsOk, Bool.and_eq_true] at hok ⊢
    exact ⟨hok.1, fsOkEntries_append_one hok.2 hc (by simp [FsNode.fsOk])⟩
  | case6 re es n p1 p2 data c hc c' hok2 ih =>
    intro s' h hok
    simp only [FsNode.writeFile, hc, hok2] at h
    cases h
    simp only [FsNode.fsOk, Bool.and_eq_true] at hok ⊢
    have hcok : c.fsOk = true := by
      have := hok.2
      clear hok
      induction es with
      | nil => simp [lookupEntry] at hc
      | cons e rest ih2 =>
        obtain ⟨m, cm⟩ := e
        simp only [fsOkEntries, Bool.and_eq_true] at this
        by_cases hm : m = n
        · rw [lookupEntry, if_pos hm] at hc
          cases hc
          exact this.1.1
        · rw [lookupEntry, if_neg hm] at hc
          exact ih2 hc this.2
    exact ⟨hok.1, fsOkEntries_setEntry hok.2 (ih hok2 hcok)⟩
  | case7 re es n p1 p2 data c hc e herr ih =>
    intro s' h; simp [FsNode.writeFile, hc, herr] at h
  | case8 re es n p1 p2 data hc =>
    intro s' h; simp [FsNode.writeFile, hc] at h

/-- A healthy entry list has healthy children. -/
theorem fsOk_of_lookupEntry {es : List (String × FsNode)} {n : String}
    {c : FsNode} (hc : lookupEntry es n = some c) (h : fsOkEntries es = true) :
    c.fsOk = true := by
  induction es with
  | nil => simp [lookupEntry] at hc
  | cons e rest ih =>
    obtain ⟨m, cm⟩ := e
    simp only [fsOkEntries, Bool.and_eq_true] at h
    by_cases hm : m = n
    · rw [lookupEntry, if_pos hm] at hc
      cases hc
      exact h.1.1
    · rw [lookupEntry, if_neg hm] at hc
      exact ih hc h.2

/-- A successful `MkdirAll` keeps the filesystem healthy. -/
theorem mkdirAll_fsOk : ∀ {s : FsNode} {t : FsPath} {s' : FsNode},
    s.mkdirAll t = .ok s' → s.fsOk = true → s'.fsOk = true := by
  intro s t
  induction s, t using FsNode.mkdirAll.induct with
  | case1 t re d => intro s' h; simp [FsNode.mkdirAll] at h
  | case2 re es =>
    intro s' h hok
    simp only [FsNode.mkdirAll] at h
    cases h
    exact hok
  | case3 re es n p c hc c' hok2 ih =>
    intro s' h hok
    simp only [FsNode.mkdirAll, hc, hok2] at h
    cases h
    simp only [FsNode.fsOk, Bool.and_eq_true] at hok ⊢
    exact ⟨hok.1, fsOkEntries_setEntry hok.2 (ih hok2 (fsOk_of_lookupEntry hc hok.2))⟩
  | case4 re es n p c hc e herr ih =>
    intro s' h; simp [FsNode.mkdirAll, hc, herr] at h
  | case5 re es n p hc c' hok2 ih =>
    intro s' h hok
    simp only [FsNode.mkdirAll, hc, hok2] at h
    cases h
    simp only [FsNode.fsOk, Bool.and_eq_true] at hok ⊢
    refine ⟨hok.1, fsOkEntries_append_one hok.2 hc (ih hok2 ?_)⟩
    simp [FsNode.fsOk, fsOkEntries]
  | case6 re es n p hc e herr ih =>
    intro s' h; simp [FsNode.mkdirAll, hc, herr] at h

/-- The empty path is a directory exactly when the node is one. -/
theorem isDirAt_nil (s : FsNode) : s.isDirAt [] = s.isDir := by
  simp [FsNode.isDirAt, FsNode.lookup]

/-- `MkdirAll` changes no file contents anywhere. -/
theorem mkdirAll_fileAt : ∀ {s : FsNode} {t : FsPath} {s' : FsNode},
    s.mkdirAll t = .ok s' → ∀ q, s'.fileAt q = s.fileAt q := by
  intro s t
  induction s, t using FsNode.mkdirAll.induct with
  | case1 t re d => intro s' h; simp [FsNode.mkdirAll] at h
  | case2 re es =>
    intro s' h q
    simp only [FsNode.mkdirAll] at h
    cases h
    rfl
  | case3 re es n p c hc c' hok ih =>
    intro s' h q
    simp only [FsNode.mkdirAll, hc, hok] at h
    cases h
    match q with
    | [] => simp [FsNode.fileAt, FsNode.lookup]
    | m :: q' =>
      by_cases hm : m = n
      · subst hm
        rw [fileAt_cons, fileAt_cons, lookupEntry_setEntry _ hc, hc]
        simp [ih hok]
      · rw [fileAt_cons, fileAt_cons, lookupEntry_setEntry_ne _ (fun hmn => hm hmn)]
  | case4 re es n p c hc e herr ih =>
    intro s' h; simp [FsNode.mkdirAll, hc, herr] at h
  | case5 re es n p hc c' hok ih =>
    intro s' h q
    simp only [FsNode.mkdirAll, hc, hok] at h
    cases h
    match q with
    | [] => simp [FsNode.fileAt, FsNode.lookup]
    | m :: q' =>
      by_cases hm : m = n
      · subst hm
        rw [fileAt_cons, fileAt_cons, lookupEntry_append, hc]
        have h0 := ih hok q'
        have hempty : (FsNode.dir none ([] : List (String × FsNode))).fileAt q' = none := by
          match q' with
          | [] => simp [FsNode.fileAt, FsNode.lookup]
          | x :: q'' => simp [fileAt_cons, lookupEntry]
        simp [lookupEntry, h0, hempty]
      · have hnm : ¬(n = m) := fun hnm => hm hnm.symm
        rw [fileAt_cons, fileAt_cons, lookupEntry_append]
        cases hme : lookupEntry es m with
        | some c2 => rfl
        | none => simp [lookupEntry, hnm]
  | case6 re es n p hc e herr ih =>
    intro s' h; simp [FsNode.mkdirAll, hc, herr] at h

/-- `WriteFile` changes no file contents at other paths. -/
theorem writeFile_fileAt_ne : ∀ {s : FsNode} {t : FsPath} {d : List Nat} {s' : FsNode},
    s.writeFile t d = .ok s' → ∀ q, q ≠ t → s'.fileAt q = s.fileAt q := by
  intro s t d
  induction s, t, d using FsNode.writeFile.induct with
  | case1 t re data x => intro s' h; simp [FsNode.writeFile] at h
  | case2 re entries x => intro s' h; simp [FsNode.writeFile] at h
  | case3 re es n data a b hc => intro s' h; simp [FsNode.writeFile, hc] at h
  | case4 re es n data fe fd hc =>
    intro s' h q hq
    simp only [FsNode.writeFile, hc] at h
    cases h
    match q with
    | [] => simp [FsNode.fileAt, FsNode.lookup]
    | m :: q' =>
      by_cases hm : m = n
      · subst hm
        rw [fileAt_cons, fileAt_cons, lookupEntry_setEntry _ hc, hc]
        match q' with
        | [] => exact absurd rfl hq
        | x :: q'' => simp [FsNode.fileAt, FsNode.lookup]
      · rw [fileAt_cons, fileAt_cons, lookupEntry_setEntry_ne _ (fun hmn => hm hmn)]
  | case5 re es n data hc =>
    intro s' h q hq
    simp only [FsNode.writeFile, hc] at h
    cases h
    match q with
    | [] => simp [FsNode.fileAt, FsNode.lookup]
    | m :: q' =>
      by_cases hm : m = n
      · subst hm
        rw [fileAt_cons, fileAt_cons, lookupEntry_append, hc]
        match q' with
        | [] => exact absurd rfl hq
        | x :: q'' => simp [lookupEntry, FsNode.fileAt, FsNode.lookup]
      · have hnm : ¬(n = m) := fun hnm => hm hnm.symm
        rw [fileAt_cons, fileAt_cons, lookupEntry_append]
        cases hme : lookupEntry es m with
        | some c2 => rfl
        | none => simp [lookupEntry, hnm]
  | case6 re es n p1 p2 data c hc c' hok ih =>
    intro s' h q hq
    simp only [FsNode.writeFile, hc, hok] at h
    cases h
    match q with
    | [] => simp [FsNode.fileAt, FsNode.lookup]
    | m :: q' =>
      by_cases hm : m = n
      · subst hm
        rw [fileAt_cons, fileAt_cons, lookupEntry_setEntry _ hc, hc]
        have : q' ≠ p1 :: p2 := fun hc2 => hq (by rw [hc2])
        simp [ih hok q' this]
      · rw [fileAt_cons, fileAt_cons, lookupEntry_setEntry_ne _ (fun hmn => hm hmn)]
  | case7 re es n p1 p2 data c hc e herr ih =>
    intro s' h; simp [FsNode.writeFile, hc, herr] at h
  | case8 re es n p1 p2 data hc =>
    intro s' h; simp [FsNode.writeFile, hc] at h

/-! ## The unlimited flat scan computes the depth-first file listing -/

/-- The entry list of a node (empty for a plain file). -/
def FsNode.entries : FsNode → List (String × FsNode)
  | .file _ _ => []
  | .dir _ es => es

/-- Every key produced by `dfs` extends the prefix by one of the listed
names. -/
theorem dfs_key_shape : ∀ {s : FsNode} {pre : FsPath} {k : FsPath},
    k ∈ (s.dfs pre).map (·.1) →
    ∃ mm q, mm ∈ (s.entries).map (·.1) ∧ k = pre ++ mm :: q := by
  intro s pre
  induction s, pre using FsNode.dfs.induct with
  | case1 re data pre =>
    intro k hk
    simp [FsNode.dfs] at hk
  | case2 re pre =>
    intro k hk
    simp [FsNode.dfs] at hk
  | case3 re n fe d rest pre ih =>
    intro k hk
    simp only [FsNode.dfs, List.map_cons, List.mem_cons] at hk
    rcases hk with hk | hk
    · exact ⟨n, [], by simp [FsNode.entries], by simpa using hk⟩
    · obtain ⟨mm, q, hmm, hkq⟩ := ih hk
      exact ⟨mm, q, by simpa [FsNode.entries] using Or.inr (by simpa [FsNode.entries] using hmm), hkq⟩
  | case4 re n de des rest pre ih1 ih2 =>
    intro k hk
    simp only [FsNode.dfs, List.map_append, List.mem_append] at hk
    rcases hk with hk | hk
    · obtain ⟨mm, q, hmm, hkq⟩ := ih1 hk
      refine ⟨n, mm :: q, by simp [FsNode.entries], ?_⟩
      simpa using hkq
    · obtain ⟨mm, q, hmm, hkq⟩ := ih2 hk
      exact ⟨mm, q, by simpa [FsNode.entries] using Or.inr (by simpa [FsNode.entries] using hmm), hkq⟩

/-- Looking a path up in the depth-first listing finds exactly the file
contents at that path (below a healthy directory). -/
theorem dfs_alookup : ∀ {s : FsNode} {pre : FsPath}, s.fsOk = true →
    s.isDir = true → ∀ q, Files.alookup (s.dfs pre) (pre ++ q) =
      (s.fileAt q).map Option.some := by
  intro s pre
  induction s, pre using FsNode.dfs.induct with
  | case1 re data pre =>
    intro _ hdir q
    simp [FsNode.isDir] at hdir
  | case2 re pre =>
    intro _ _ q
    match q with
    | [] => simp [FsNode.dfs, Files.alookup, FsNode.fileAt, FsNode.lookup]
    | m :: q' => simp [FsNode.dfs, Files.alookup, fileAt_cons, lookupEntry]
  | case3 re n fe d rest pre ih =>
    intro hok hdir q
    have hok' : (FsNode.dir re rest).fsOk = true := by
      simp only [FsNode.fsOk, fsOkEntries, Bool.and_eq_true] at hok ⊢
      exact ⟨hok.1, hok.2.2⟩
    have hn_not : n ∉ rest.map (·.1) := by
      simp only [FsNode.fsOk, fsOkEntries, Bool.and_eq_true] at hok
      simpa using hok.2.1.2
    by_cases hq : q = [n]
    · subst hq
      simp only [FsNode.dfs, Files.alookup, if_pos rfl]
      simp [fileAt_cons, lookupEntry, FsNode.fileAt, FsNode.lookup]
    · have hkey : ¬(pre ++ [n] = pre ++ q) := by
        intro hc
        exact hq (List.append_cancel_left hc).symm
      simp only [FsNode.dfs, Files.alookup, if_neg hkey]
      rw [ih hok' rfl q]
      have heq : (FsNode.dir re rest).fileAt q
          = (FsNode.dir re ((n, FsNode.file fe d) :: rest)).fileAt q := by
        match q with
        | [] => simp [FsNode.fileAt, FsNode.lookup]
        | m :: q' =>
          rw [fileAt_cons, fileAt_cons]
          by_cases hm : m = n
          · rw [hm, lookupEntry_none_iff.mpr hn_not]
            simp only [lookupEntry, if_pos rfl]
            match q' with
            | [] => exact absurd (by rw [hm]) hq
            | x :: q'' => simp [FsNode.fileAt, FsNode.lookup]
          · have hnm : ¬(n = m) := fun h2 => hm h2.symm
            simp [lookupEntry, hnm]
      rw [heq]
  | case4 re n de des rest pre ih1 ih2 =>
    intro hok hdir q
    have hokc : (FsNode.dir de des).fsOk = true := by
      simp only [FsNode.fsOk, fsOkEntries, Bool.and_eq_true] at hok ⊢
      exact hok.2.1.1
    have hok' : (FsNode.dir re rest).fsOk = true := by
      simp only [FsNode.fsOk, fsOkEntries, Bool.and_eq_true] at hok ⊢
      exact ⟨hok.1, hok.2.2⟩
    have hn_not : n ∉ rest.map (·.1) := by
      simp only [FsNode.fsOk, fsOkEntries, Bool.and_eq_true] at hok
      simpa using hok.2.1.2
    rw [FsNode.dfs, alookup_append]
    match q with
    | [] =>
      have h1 : Files.alookup ((FsNode.dir de des).dfs (pre ++ [n]))
          (pre ++ ([] : FsPath)) = none := by
        refine alookup_none_of_forall_ne ?_
        intro k hk hc
        obtain ⟨mm, qq, _, hkq⟩ := dfs_key_shape hk
        rw [hkq, show (pre ++ [n]) ++ mm :: qq = pre ++ (n :: mm :: qq) from by simp]
          at hc
        have := List.append_cancel_left hc
        simp at this
      rw [h1, ih2 hok' rfl []]
      simp [FsNode.fileAt, FsNode.lookup]
    | m :: q' =>
      by_cases hm : m = n
      · subst hm
        rw [show pre ++ m :: q' = (pre ++ [m]) ++ q' from by simp,
          ih1 hokc rfl q']
        cases hv : (FsNode.dir de des).fileAt q' with
        | some w =>
          rw [fileAt_cons]
          simp [lookupEntry, hv]
        | none =>
          have h2 : Files.alookup ((FsNode.dir re rest).dfs pre)
              ((pre ++ [m]) ++ q') = none := by
            refine alookup_none_of_forall_ne ?_
            intro k hk hc
            obtain ⟨mm, qq, hmm, hkq⟩ := dfs_key_shape hk
            rw [hkq, show (pre ++ [m]) ++ q' = pre ++ (m :: q') from by simp] at hc
            have := List.append_cancel_left hc
            have hmmn : mm = m := by
              have := congrArg (fun l => l.headD "") this
              simpa using this
            exact hn_not (hmmn ▸ hmm)
          have h2' : ((FsNode.dir re rest).dfs pre).alookup (pre ++ m :: q')
              = none := by simpa using h2
          rw [fileAt_cons]
          simp [lookupEntry, hv, h2']
      · have h1 : Files.alookup ((FsNode.dir de des).dfs (pre ++ [n]))
            (pre ++ m :: q') = none := by
          refine alookup_none_of_forall_ne ?_
          intro k hk hc
          obtain ⟨mm, qq, _, hkq⟩ := dfs_key_shape hk
          rw [hkq, show (pre ++ [n]) ++ mm :: qq = pre ++ (n :: mm :: qq) from by simp]
            at hc
          have := List.append_cancel_left hc
          have : m = n := by
            have := congrArg (fun l => l.headD "") this.symm
            simpa using this
          exact hm this
        rw [h1, ih2 hok' rfl (m :: q')]
        rw [fileAt_cons, fileAt_cons]
        have hnm : ¬(n = m) := fun h2 => hm h2.symm
        simp [lookupEntry, hnm]

/-- An unlimited scan of a healthy directory succeeds and appends exactly
its depth-first file listing to the accumulated snapshot (whose keys lie
outside the scanned area). -/
theorem readFS_dfs : ∀ {s : FsNode} {pre : FsPath}, s.fsOk = true →
    s.isDir = true → ∀ (nd : Int) (acc : Files), nd < 0 →
    (∀ k ∈ acc.map (·.1), ∀ mm ∈ (s.entries).map (·.1),
      isInitSeg (pre ++ [mm]) k = false) →
    Files.readFS s pre nd acc = (acc ++ s.dfs pre, none) := by
  intro s pre
  induction s, pre using FsNode.dfs.induct with
  | case1 re data pre =>
    intro _ hdir nd acc _ _
    simp [FsNode.isDir] at hdir
  | case2 re pre =>
    intro hok _ nd acc _ _
    have hre : re = none := by
      simp only [FsNode.fsOk, Bool.and_eq_true] at hok
      simpa using hok.1
    subst hre
    simp [Files.readFS, Files.readEntries, FsNode.dfs]
  | case3 re n fe d rest pre ih =>
    intro hok hdir nd acc hnd hfresh
    have hre : re = none := by
      simp only [FsNode.fsOk, Bool.and_eq_true] at hok
      simpa using hok.1
    have hfe : fe = none := by
      simp only [FsNode.fsOk, fsOkEntries, FsNode.fsOk, Bool.and_eq_true] at hok
      simpa using hok.2.1.1
    have hok' : (FsNode.dir re rest).fsOk = true := by
      simp only [FsNode.fsOk, fsOkEntries, Bool.and_eq_true] at hok ⊢
      exact ⟨hok.1, hok.2.2⟩
    have hn_not : n ∉ rest.map (·.1) := by
      simp only [FsNode.fsOk, fsOkEntries, Bool.and_eq_true] at hok
      simpa using hok.2.1.2
    subst hre hfe
    have hfreshn : Files.alookup acc (pre ++ [n]) = none := by
      refine alookup_none_of_forall_ne ?_
      intro k hk hc
      have := hfresh k hk n (by simp [FsNode.entries])
      rw [hc, isInitSeg_refl] at this
      simp at this
    have hstep : Files.readFS (FsNode.dir none ((n, FsNode.file none d) :: rest))
        pre nd acc = Files.readEntries rest pre nd (acc ++ [(pre ++ [n], some d)]) := by
      simp only [Files.readFS, Files.readEntries,
        insert_of_alookup_none _ hfreshn]
      simp
    rw [hstep]
    have hrest : Files.readFS (FsNode.dir none rest) pre nd
        (acc ++ [(pre ++ [n], some d)]) =
        ((acc ++ [(pre ++ [n], some d)]) ++ (FsNode.dir none rest).dfs pre, none) := by
      refine ih hok' rfl nd _ hnd ?_
      intro k hk mm hmm
      simp only [List.map_append, List.mem_append] at hk
      rcases hk with hk | hk
      · exact hfresh k hk mm (by simp [FsNode.entries] at hmm ⊢; exact Or.inr hmm)
      · simp only [List.map_cons, List.map_nil, List.mem_singleton] at hk
        subst hk
        rw [isInitSeg_append_left]
        simp only [FsNode.entries] at hmm
        have hmn : ¬(mm = n) := by
          intro hc
          exact hn_not (hc ▸ hmm)
        simp [isInitSeg, hmn]
    have hrest2 : Files.readEntries rest pre nd (acc ++ [(pre ++ [n], some d)]) =
        ((acc ++ [(pre ++ [n], some d)]) ++ (FsNode.dir none rest).dfs pre, none) := by
      rw [← hrest]
      simp [Files.readFS]
    rw [hrest2]
    simp [FsNode.dfs]
  | case4 re n de des rest pre ih1 ih2 =>
    intro hok hdir nd acc hnd hfresh
    have hre : re = none := by
      simp only [FsNode.fsOk, Bool.and_eq_true] at hok
      simpa using hok.1
    have hokc : (FsNode.dir de des).fsOk = true := by
      simp only [FsNode.fsOk, fsOkEntries, Bool.and_eq_true] at hok ⊢
      exact hok.2.1.1
    have hok' : (FsNode.dir re rest).fsOk = true := by
      simp only [FsNode.fsOk, fsOkEntries, Bool.and_eq_true] at hok ⊢
      exact ⟨hok.1, hok.2.2⟩
    have hn_not : n ∉ rest.map (·.1) := by
      simp only [FsNode.fsOk, fsOkEntries, Bool.and_eq_true] at hok
      simpa using hok.2.1.2
    subst hre
    have hnd0 : nd ≠ 0 := by omega
    have hsub : Files.readFS (FsNode.dir de des) (pre ++ [n]) (nd - 1) acc =
        (acc ++ (FsNode.dir de des).dfs (pre ++ [n]), none) := by
      refine ih1 hokc rfl (nd - 1) acc (by omega) ?_
      intro k hk mm hmm
      by_contra hcon
      rw [Bool.not_eq_false] at hcon
      have h2 : isInitSeg (pre ++ [n]) k = true :=
        @isInitSeg_of_append (pre ++ [n]) [mm] k (by simpa using hcon)
      have := hfresh k hk n (by simp [FsNode.entries])
      rw [h2] at this
      simp at this
    have hstep : Files.readFS (FsNode.dir none ((n, FsNode.dir de des) :: rest))
        pre nd acc =
        Files.readEntries rest pre nd (acc ++ (FsNode.dir de des).dfs (pre ++ [n])) := by
      have e1 : Files.readFS (FsNode.dir none ((n, FsNode.dir de des) :: rest)) pre nd acc
          = Files.readEntries ((n, FsNode.dir de des) :: rest) pre nd acc := by
        simp [Files.readFS]
      rw [e1, readEntries_cons_dir_ok hnd0 n hsub rest]
    rw [hstep]
    have hrest : Files.readFS (FsNode.dir none rest) pre nd
        (acc ++ (FsNode.dir de des).dfs (pre ++ [n])) =
        ((acc ++ (FsNode.dir de des).dfs (pre ++ [n]))
          ++ (FsNode.dir none rest).dfs pre, none) := by
      refine ih2 hok' rfl nd _ hnd ?_
      intro k hk mm hmm
      simp only [List.map_append, List.mem_append] at hk
      rcases hk with hk | hk
      · exact hfresh k hk mm (by simp [FsNode.entries] at hmm ⊢; exact Or.inr hmm)
      · obtain ⟨mm2, qq, _, hkq⟩ := dfs_key_shape hk
        subst hkq
        rw [show (pre ++ [n]) ++ mm2 :: qq = pre ++ (n :: mm2 :: qq) from by simp,
          isInitSeg_append_left]
        simp only [FsNode.entries] at hmm
        have hmn : ¬(mm = n) := by
          intro hc
          exact hn_not (hc ▸ hmm)
        simp [isInitSeg, hmn]
    have hrest2 : Files.readEntries rest pre nd
        (acc ++ (FsNode.dir de des).dfs (pre ++ [n])) =
        ((acc ++ (FsNode.dir de des).dfs (pre ++ [n]))
          ++ (FsNode.dir none rest).dfs pre, none) := by
      rw [← hrest]
      simp [Files.readFS]
    rw [hrest2]
    simp [FsNode.dfs]

/-- Writing a flat snapshot into a compatible directory succeeds and leaves
exactly the snapshot's files (below directories that are initial segments
of its keys), extending whatever was written before (`done`). -/
theorem filesWrite_spec : ∀ (F done : Files) (s : FsNode),
    s.isDir = true → s.fsOk = true →
    noInitPairs ((done ++ F).map (·.1)) = true →
    (∀ p ∈ F.map (·.1), p ≠ ([] : FsPath)) →
    (∀ q, s.fileAt q = (Files.alookup done q).map FData.bytes) →
    (∀ q, s.isDirAt q = true →
      q = [] ∨ ∃ k ∈ done.map (·.1), isInitSeg q k = true ∧ q ≠ k) →
    ∃ s', Files.Write F s = (s', none) ∧ s'.isDir = true ∧ s'.fsOk = true ∧
      (∀ q, s'.fileAt q = (Files.alookup (done ++ F) q).map FData.bytes) ∧
      (∀ q, s'.isDirAt q = true →
        q = [] ∨ ∃ k ∈ (done ++ F).map (·.1), isInitSeg q k = true ∧ q ≠ k) := by
  intro F
  induction F with
  | nil =>
    intro done s hdir hok _ _ hfile hdirs
    exact ⟨s, by simp [Files.Write], hdir, hok, by simpa using hfile,
      by simpa using hdirs⟩
  | cons e rest ih =>
    intro done s hdir hok hnoi hne hfile hdirs
    obtain ⟨p, v⟩ := e
    have hp : p ≠ [] := hne p (by simp)
    have hpmem : p ∈ ((done ++ (p, v) :: rest).map (·.1)) := by simp
    have hchain : ∀ q, isInitSeg q p.dropLast = true → s.fileAt q = none := by
      intro q hq
      rw [hfile q]
      cases hlq : Files.alookup done q with
      | none => simp
      | some w =>
        exfalso
        have hqmem : q ∈ ((done ++ (p, v) :: rest).map (·.1)) := by
          simp only [List.map_append, List.mem_append]
          exact Or.inl (mem_of_alookup_some hlq)
        have hqp : isInitSeg q p = true :=
          isInitSeg_trans hq (isInitSeg_dropLast p)
        have hqeq := noInitPairs_eq hnoi hqmem hpmem hqp
        subst hqeq
        rw [isInitSeg_dropLast_self hp] at hq
        simp at hq
    obtain ⟨s1, hmk⟩ := mkdirAll_ok hdir hchain
    have hs1file : ∀ q, s1.fileAt q = s.fileAt q := mkdirAll_fileAt hmk
    have hs1dir : ∀ q, s1.isDirAt q = (s.isDirAt q || isInitSeg q p.dropLast) :=
      mkdirAll_isDirAt hmk
    have hs1ok : s1.fsOk = true := mkdirAll_fsOk hmk hok
    have hs1root : s1.isDir = true := by
      rw [← isDirAt_nil, hs1dir []]
      simp [isInitSeg]
    have hpnot : s1.isDirAt p = false := by
      rw [hs1dir p, isInitSeg_dropLast_self hp]
      cases hsp : s.isDirAt p with
      | false => simp
      | true =>
        exfalso
        rcases hdirs p hsp with hc | ⟨k, hk, hik, hnk⟩
        · exact hp hc
        · have hkmem : k ∈ ((done ++ (p, v) :: rest).map (·.1)) := by
            simp only [List.map_append, List.mem_append]
            exact Or.inl hk
          exact hnk (noInitPairs_eq hnoi hpmem hkmem hik)
    have hpdl : s1.isDirAt p.dropLast = true := by
      rw [hs1dir p.dropLast, isInitSeg_refl]
      simp
    obtain ⟨a1, b1, hpar⟩ : ∃ a b, s1.lookup p.dropLast = some (.dir a b) := by
      unfold FsNode.isDirAt at hpdl
      match hl : s1.lookup p.dropLast with
      | none => rw [hl] at hpdl; simp at hpdl
      | some (.file x y) => rw [hl] at hpdl; simp [FsNode.isDir] at hpdl
      | some (.dir x y) => exact ⟨x, y, rfl⟩
    obtain ⟨s2, hwf⟩ : ∃ s2, s1.writeFile p v.bytes = .ok s2 := by
      match hl : s1.lookup p with
      | none => exact writeFile_create v.bytes hpar hl hp
      | some (.dir x y) =>
        exfalso
        unfold FsNode.isDirAt at hpnot
        rw [hl] at hpnot
        simp [FsNode.isDir] at hpnot
      | some (.file fe fd) =>
        obtain ⟨s2, h1, _⟩ := writeFile_overwrite v.bytes hl hp
        exact ⟨s2, h1⟩
    have hs2p : s2.lookup p = some (.file none v.bytes) := writeFile_ok_fileAt hwf
    have hs2file_ne : ∀ q, q ≠ p → s2.fileAt q = s1.fileAt q :=
      fun q hq => writeFile_fileAt_ne hwf q hq
    have hs2dir : ∀ q, s2.isDirAt q = s1.isDirAt q := writeFile_isDirAt hwf
    have hs2ok : s2.fsOk = true := writeFile_fsOk hwf hs1ok
    have hs2root : s2.isDir = true := by
      rw [← isDirAt_nil, hs2dir [], isDirAt_nil]
      exact hs1root
    have hpnotdone : p ∉ done.map (·.1) := by
      intro hmem
      have hnodup := noInitPairs_nodup hnoi
      rw [List.map_append] at hnodup
      rcases List.nodup_append.mp hnodup with ⟨_, _, hdis⟩
      exact hdis hmem (by simp)
    have hfile2 : ∀ q, s2.fileAt q =
        (Files.alookup (done ++ [(p, v)]) q).map FData.bytes := by
      intro q
      by_cases hq : q = p
      · rw [hq]
        have hnd : Files.alookup done p = none := by
          refine alookup_none_of_forall_ne ?_
          intro k hk hkq
          exact hpnotdone (by rwa [hkq] at hk)
        rw [alookup_append, hnd]
        simp only [Files.alookup, if_pos rfl]
        simp [FsNode.fileAt, hs2p]
      · rw [hs2file_ne q hq, hs1file q, hfile q, alookup_append]
        cases hlq : Files.alookup done q with
        | some w => simp
        | none =>
          have hpq : ¬(p = q) := fun hc => hq hc.symm
          simp [Files.alookup, hpq]
    have hdirs2 : ∀ q, s2.isDirAt q = true →
        q = [] ∨ ∃ k ∈ (done ++ [(p, v)]).map (·.1), isInitSeg q k = true ∧ q ≠ k := by
      intro q hq
      rw [hs2dir q, hs1dir q] at hq
      rcases Bool.or_eq_true_iff.mp hq with hq1 | hq1
      · rcases hdirs q hq1 with hc | ⟨k, hk, hik, hnk⟩
        · exact Or.inl hc
        · exact Or.inr ⟨k, by simp [hk], hik, hnk⟩
      · refine Or.inr ⟨p, by simp, isInitSeg_trans hq1 (isInitSeg_dropLast p), ?_⟩
        intro hc
        subst hc
        rw [isInitSeg_dropLast_self hp] at hq1
        simp at hq1
    have hnoi2 : noInitPairs (((done ++ [(p, v)]) ++ rest).map (·.1)) = true := by
      have : (done ++ [(p, v)]) ++ rest = done ++ (p, v) :: rest := by simp
      rw [this]
      exact hnoi
    obtain ⟨s', hw', hdir', hok', hfile', hdirs'⟩ :=
      ih (done ++ [(p, v)]) s2 hs2root hs2ok hnoi2
        (fun k hk => hne k (by simp [hk])) hfile2 hdirs2
    refine ⟨s', ?_, hdir', hok', ?_, ?_⟩
    · simp only [Files.Write, hmk, hwf, hw']
    · intro q
      have := hfile' q
      rwa [show (done ++ [(p, v)]) ++ rest = done ++ (p, v) :: rest from by simp]
        at this
    · intro q hq
      have := hdirs' q hq
      rwa [show (done ++ [(p, v)]) ++ rest = done ++ (p, v) :: rest from by simp]
        at this

/-! ## Tree round trip -/

/-- Replacing the value of a freshly appended entry. -/
theorem setEntry_append_none {es : List (String × FsNode)} {n : String}
    (x v : FsNode) (h : lookupEntry es n = none) :
    setEntry (es ++ [(n, x)]) n v = es ++ [(n, v)] := by
  induction es with
  | nil => simp [setEntry]
  | cons e rest ih =>
    obtain ⟨m, c⟩ := e
    simp only [lookupEntry] at h
    by_cases hm : m = n
    · rw [if_pos hm] at h
      simp at h
    · rw [if_neg hm] at h
      simp [setEntry, hm, ih h]

/-- Writing a well-formed entry list into a directory whose existing names
are all distinct from the written ones appends exactly their filesystem
image, in order, without error. -/
theorem dirsWrite_fresh : ∀ (l : List (String × Dirs)) (de : Option FsErr)
    (es0 : List (String × FsNode)), Dirs.wfEntries l = true →
    (∀ e ∈ l, lookupEntry es0 e.1 = none) →
    Dirs.writeEntries l (.dir de es0) = (.dir de (es0 ++ Dirs.toEntries l), none) := by
  intro l
  induction l using Dirs.toEntries.induct with
  | case1 =>
    intro de es0 _ _
    simp [Dirs.writeEntries, Dirs.toEntries]
  | case2 n rest ih =>
    intro de es0 hwf hfresh
    simp only [Dirs.wfEntries, Bool.and_eq_true] at hwf
    have hh : lookupEntry es0 n = none := hfresh (n, Dirs.nil) (by simp)
    have hstep : writeEmptyFile (FsNode.dir de es0) n
        = .ok (.dir de (es0 ++ [(n, .file none [])])) := by
      simp [writeEmptyFile, FsNode.writeFile, hh]
    have hrest : Dirs.writeEntries rest (.dir de (es0 ++ [(n, .file none [])]))
        = (.dir de ((es0 ++ [(n, .file none [])]) ++ Dirs.toEntries rest), none) := by
      refine ih de _ hwf.2 ?_
      intro e he
      rw [lookupEntry_append, hfresh e (by simp [he])]
      have hen : ¬(n = e.1) := by
        intro hc
        have : e.1 ∈ rest.map (·.1) := List.mem_map_of_mem _ he
        rw [← hc] at this
        have h2 := hwf.1.1.2
        rw [Bool.not_eq_true'] at h2
        simp [List.contains, List.elem_eq_mem, this] at h2
      simp [lookupEntry, hen]
    simp only [Dirs.writeEntries, hstep]
    have hok : isWriteErrOk (FsNode.dir de (es0 ++ [(n, .file none [])])) none n false
        = true := by simp [isWriteErrOk, isExistErr]
    simp only [hok, Bool.not_true, Bool.false_eq_true, if_false, hrest]
    simp [Dirs.toEntries]
  | case3 n sub rest ih1 ih2 =>
    intro de es0 hwf hfresh
    simp only [Dirs.wfEntries, Bool.and_eq_true] at hwf
    have hh : lookupEntry es0 n = none := hfresh (n, Dirs.node sub) (by simp)
    have hstep : (FsNode.dir de es0).mkdir1 n
        = .ok (.dir de (es0 ++ [(n, .dir none [])])) := by
      simp [FsNode.mkdir1, hh]
    have hlook : lookupEntry (es0 ++ [(n, FsNode.dir none [])]) n
        = some (.dir none []) := by
      rw [lookupEntry_append, hh]
      simp [lookupEntry]
    have hsub : Dirs.writeEntries sub (.dir none [])
        = (.dir none (Dirs.toEntries sub), none) := by
      have := ih1 none [] (by
        have := hwf.1.2
        simpa [Dirs.wfVal] using this) (by simp [lookupEntry])
      simpa using this
    have hen : ∀ e ∈ rest, ¬(n = e.1) := by
      intro e he hc
      have hmem : e.1 ∈ rest.map (·.1) := List.mem_map_of_mem _ he
      rw [← hc] at hmem
      have h2 := hwf.1.1.2
      rw [Bool.not_eq_true'] at h2
      simp [List.contains, List.elem_eq_mem, hmem] at h2
    have hset : setEntry (es0 ++ [(n, FsNode.dir none [])]) n
        (.dir none (Dirs.toEntries sub)) = es0 ++ [(n, .dir none (Dirs.toEntries sub))] :=
      setEntry_append_none _ _ hh
    have hrest : Dirs.writeEntries rest
        (.dir de (es0 ++ [(n, .dir none (Dirs.toEntries sub))]))
        = (.dir de ((es0 ++ [(n, .dir none (Dirs.toEntries sub))])
            ++ Dirs.toEntries rest), none) := by
      refine ih2 de _ hwf.2 ?_
      intro e he
      rw [lookupEntry_append, hfresh e (by simp [he])]
      simp [lookupEntry, hen e he]
    have hok : isWriteErrOk (FsNode.dir de (es0 ++ [(n, .dir none [])])) none n true
        = true := by simp [isWriteErrOk, isExistErr]
    simp only [Dirs.writeEntries, hstep, hok, Bool.not_true, Bool.false_eq_true,
      if_false, hlook, hsub, hset, hrest]
    simp [Dirs.toEntries]

/-- Scanning the filesystem image of a well-formed entry list at unlimited
depth reproduces the entry list exactly. -/
theorem scanEntries_toEntries : ∀ (l : List (String × Dirs)),
    Dirs.wfEntries l = true → ∀ (nd : Int), nd < 0 →
    dirsnap.scanEntries (Dirs.toEntries l) nd = (l, none) := by
  intro l
  induction l using Dirs.toEntries.induct with
  | case1 =>
    intro _ nd _
    simp [Dirs.toEntries, dirsnap.scanEntries]
  | case2 n rest ih =>
    intro hwf nd hnd
    simp only [Dirs.wfEntries, Bool.and_eq_true] at hwf
    simp only [Dirs.toEntries]
    rw [scanEntries_cons_file (by simp [FsNode.isDir]) n (Dirs.toEntries rest) nd,
      ih hwf.2 nd hnd]
  | case3 n sub rest ih1 ih2 =>
    intro hwf nd hnd
    simp only [Dirs.wfEntries, Bool.and_eq_true] at hwf
    simp only [Dirs.toEntries]
    have hwsub : Dirs.wfEntries sub = true := by
      have := hwf.1.2
      simpa [Dirs.wfVal] using this
    have hsub : dirsnap.scanFs (.dir none (Dirs.toEntries sub)) (nd - 1)
        = (Dirs.node sub, none) := by
      have := ih1 hwsub (nd - 1) (by omega)
      simp [dirsnap.scanFs, this]
    rw [scanEntries_cons_dir_ok (by simp [FsNode.isDir]) (by simp; omega)
      (by rw [hsub]) n (Dirs.toEntries rest), hsub, ih2 hwf.2 nd hnd]

/-- Values looked up in an all-some snapshot are some. -/
theorem alookup_allSome : ∀ {F : Files} {q : FsPath} {v : FData},
    F.allSome = true → Files.alookup F q = some v → v.isSome = true := by
  intro F
  induction F with
  | nil =>
    intro q v _ hlq
    simp [Files.alookup] at hlq
  | cons e rest ih =>
    intro q v hsome hlq
    obtain ⟨k2, w2⟩ := e
    simp only [Files.allSome, List.all_cons, Bool.and_eq_true] at hsome
    by_cases hk2 : k2 = q
    · simp only [Files.alookup, if_pos hk2] at hlq
      cases hlq
      simpa using hsome.1
    · simp only [Files.alookup, if_neg hk2] at hlq
      exact ih hsome.2 hlq

/-- C1. Round trip: writing a well-formed snapshot into an empty directory
succeeds, and an unlimited scan of the result reproduces the snapshot.  For
the tree form the scanned snapshot is literally equal to the written one.
For the flat form the scanned snapshot is the written one as a map: the
association lists have duplicate-free keys and agree on every lookup (the
snapshot's values are required to be actual byte sequences, `Option.some`,
since a Go nil slice reads back as its empty contents). -/
theorem fsnap_round_trip :
    (∀ S : Dirs, S.wf = true →
      (Dirs.Write S (.dir none [])).2 = none ∧
      dirsnap.ReadFS (Dirs.Write S (.dir none [])).1 [] (-1) = (S, none)) ∧
    (∀ F : Files, F.wf = true → F.allSome = true →
      ∃ s', Files.Write F (.dir none []) = (s', none) ∧
        (filesnap.ReadFS s' [] (-1)).2 = none ∧
        (∀ q, Files.alookup (filesnap.ReadFS s' [] (-1)).1 q = Files.alookup F q) ∧
        ((filesnap.ReadFS s' [] (-1)).1.map (·.1)).Nodup) := by
  constructor
  · intro S hwf
    match S with
    | Dirs.nil => simp [Dirs.wf] at hwf
    | Dirs.node l =>
      have hwfe : Dirs.wfEntries l = true := by simpa [Dirs.wf] using hwf
      have hw : Dirs.Write (Dirs.node l) (.dir none [])
          = (.dir none (Dirs.toEntries l), none) := by
        have := dirsWrite_fresh l none [] hwfe (by simp [lookupEntry])
        simpa [Dirs.Write] using this
      rw [hw]
      refine ⟨rfl, ?_⟩
      have hscan := scanEntries_toEntries l hwfe (-1) (by omega)
      simp [dirsnap.ReadFS, FsNode.lookup, dirsnap.scanFs, hscan]
  · intro F hwf hsome
    have hnoi : noInitPairs (F.map (·.1)) = true := by
      simp only [Files.wf, Bool.and_eq_true] at hwf
      exact hwf.2
    have hne : ∀ p ∈ F.map (·.1), p ≠ ([] : FsPath) := by
      intro p hp hc
      simp only [Files.wf, Bool.and_eq_true, List.all_eq_true] at hwf
      simp only [List.mem_map] at hp
      obtain ⟨e, he, hep⟩ := hp
      have := hwf.1 e he
      rw [hep, hc] at this
      simp [validFsPath] at this
    obtain ⟨s', hw, hdir', hok', hfile', _⟩ :=
      filesWrite_spec F [] (.dir none []) rfl (by simp [FsNode.fsOk, fsOkEntries])
        (by simpa using hnoi) hne
        (by
          intro q
          match q with
          | [] => simp [FsNode.fileAt, FsNode.lookup, Files.alookup]
          | m :: q' => simp [fileAt_cons, lookupEntry, Files.alookup])
        (by
          intro q hq
          match q with
          | [] => exact Or.inl rfl
          | m :: q' =>
            rw [isDirAt_cons] at hq
            simp [lookupEntry] at hq)
    refine ⟨s', hw, ?_⟩
    have hread : filesnap.ReadFS s' [] (-1) = ([] ++ s'.dfs [], none) := by
      have := @readFS_dfs s' [] hok' hdir' (-1) [] (by omega) (by simp)
      simpa [filesnap.ReadFS, FsNode.lookup] using this
    rw [hread]
    refine ⟨rfl, ?_, ?_⟩
    · intro q
      have hb := @dfs_alookup s' [] hok' hdir' q
      simp only [List.nil_append]
      rw [show Files.alookup (s'.dfs []) q = Files.alookup (s'.dfs []) ([] ++ q)
        from by simp, hb, hfile' q]
      simp only [List.nil_append]
      cases hlq : Files.alookup F q with
      | none => simp
      | some v =>
        have hv : v.isSome = true := alookup_allSome hsome hlq
        obtain ⟨bs, hbs⟩ := Option.isSome_iff_exists.mp hv
        subst hbs
        simp [FData.bytes]
    · have hnd := @readFS_nodup s' [] (-1) [] (by simp)
      have hread2 : Files.readFS s' [] (-1) [] = ([] ++ s'.dfs [], none) := by
        have := @readFS_dfs s' [] hok' hdir' (-1) [] (by omega) (by simp)
        simpa using this
      rw [hread2] at hnd
      simpa using hnd

/-- Witness for C1 at a concrete tree snapshot and a concrete flat
snapshot. -/
theorem fsnap_round_trip_witness :
    ((Dirs.Write (.node [("d", .node [("x", .nil)]), ("f", .nil)])
        (.dir none [])).2 = none ∧
      dirsnap.ReadFS (Dirs.Write (.node [("d", .node [("x", .nil)]), ("f", .nil)])
          (.dir none [])).1 [] (-1)
        = (.node [("d", .node [("x", .nil)]), ("f", .nil)], none)) ∧
    (∃ s', Files.Write [(["a", "b"], some [104]), (["c"], some [])]
          (.dir none []) = (s', none) ∧
      (filesnap.ReadFS s' [] (-1)).2 = none ∧
      (∀ q, Files.alookup (filesnap.ReadFS s' [] (-1)).1 q
        = Files.alookup [(["a", "b"], some [104]), (["c"], some [])] q) ∧
      ((filesnap.ReadFS s' [] (-1)).1.map (·.1)).Nodup) :=
  ⟨fsnap_round_trip.1 (.node [("d", .node [("x", .nil)]), ("f", .nil)]) (by decide),
   fsnap_round_trip.2 [(["a", "b"], some [104]), (["c"], some [])]
     (by decide) (by decide)⟩

/-! ## Second-write idempotence -/

/-- `WriteFile` never reports an already-exists error (`EISDIR` and
`ENOTDIR` are not `ErrExist`). -/
theorem writeFile_no_exist : ∀ {s : FsNode} {t : FsPath} {d : List Nat},
    s.writeFile t d ≠ .error .exist := by
  intro s t d
  induction s, t, d using FsNode.writeFile.induct with
  | case1 t re data x => simp [FsNode.writeFile]
  | case2 re entries x => simp [FsNode.writeFile]
  | case3 re es n data a b hc => simp [FsNode.writeFile, hc]
  | case4 re es n data fe fd hc => simp [FsNode.writeFile, hc]
  | case5 re es n data hc => simp [FsNode.writeFile, hc]
  | case6 re es n p1 p2 data c hc c' hok ih => simp [FsNode.writeFile, hc, hok]
  | case7 re es n p1 p2 data c hc e herr ih =>
    simp only [FsNode.writeFile, hc, herr]
    intro hcon
    exact ih (herr.trans hcon)
  | case8 re es n p1 p2 data hc => simp [FsNode.writeFile, hc]

/-- Writing a file one level down does not disturb siblings. -/
theorem writeFile1_frame {s s1 : FsNode} {m : String} {d : List Nat}
    (h : s.writeFile [m] d = .ok s1) {n : String} (hmn : m ≠ n) :
    s1.lookup [n] = s.lookup [n] := by
  match s with
  | .file re dd => simp [FsNode.writeFile] at h
  | .dir re es =>
    simp only [FsNode.writeFile] at h
    match hc : lookupEntry es m with
    | some (.dir a b) => rw [hc] at h; simp at h
    | some (.file fe fd) =>
      rw [hc] at h
      cases h
      simp [FsNode.lookup, lookupEntry_setEntry_ne _ (fun hc2 => hmn hc2.symm)]
    | none =>
      rw [hc] at h
      cases h
      simp only [FsNode.lookup, lookupEntry_append]
      cases hme : lookupEntry es n with
      | some c2 => rfl
      | none => simp [lookupEntry, hmn]

/-- `Mkdir` one level down does not disturb siblings. -/
theorem mkdir1_frame {s s1 : FsNode} {m : String}
    (h : s.mkdir1 m = .ok s1) {n : String} (hmn : m ≠ n) :
    s1.lookup [n] = s.lookup [n] := by
  match s with
  | .file re dd => simp [FsNode.mkdir1] at h
  | .dir re es =>
    simp only [FsNode.mkdir1] at h
    match hc : lookupEntry es m with
    | some c => rw [hc] at h; simp at h
    | none =>
      rw [hc] at h
      cases h
      simp only [FsNode.lookup, lookupEntry_append]
      cases hme : lookupEntry es n with
      | some c2 => rfl
      | none => simp [lookupEntry, hmn]

/-- The entry loop of `Dirs.Write` does not disturb a child whose name none
of the written entries carries, whatever the outcome. -/
theorem writeEntries_frame : ∀ (l : List (String × Dirs)) (s : FsNode) (n : String),
    (∀ e ∈ l, e.1 ≠ n) → (Dirs.writeEntries l s).1.lookup [n] = s.lookup [n] := by
  intro l
  induction l using Dirs.toEntries.induct with
  | case1 =>
    intro s n _
    simp [Dirs.writeEntries]
  | case2 m rest ih =>
    intro s n hne
    have hmn : m ≠ n := hne (m, Dirs.nil) (by simp)
    have hrest : ∀ e ∈ rest, e.1 ≠ n := fun e he => hne e (by simp [he])
    simp only [Dirs.writeEntries]
    cases hw : writeEmptyFile s m with
    | ok sA =>
      have hok : isWriteErrOk sA none m false = true := by
        simp [isWriteErrOk, isExistErr]
      simp only [hw, hok, Bool.not_true, Bool.false_eq_true, if_false]
      rw [ih _ n hrest]
      exact writeFile1_frame hw hmn
    | error e =>
      by_cases hok : isWriteErrOk s (some e) m false = true
      · simp only [hw, hok, Bool.not_true, Bool.false_eq_true, if_false]
        exact ih _ n hrest
      · rw [Bool.not_eq_true] at hok
        simp only [hw, hok, Bool.not_false, if_true]
  | case3 m sub rest ih1 ih2 =>
    intro s n hne
    have hmn : m ≠ n := hne (m, Dirs.node sub) (by simp)
    have hrest : ∀ e ∈ rest, e.1 ≠ n := fun e he => hne e (by simp [he])
    simp only [Dirs.writeEntries]
    cases hw : s.mkdir1 m with
    | ok sA =>
      have hok : isWriteErrOk sA none m true = true := by
        simp [isWriteErrOk, isExistErr]
      simp only [hw, hok, Bool.not_true, Bool.false_eq_true, if_false]
      match s, hw with
      | .dir reS esS, hw =>
        simp only [FsNode.mkdir1] at hw
        match hcs : lookupEntry esS m with
        | some c => rw [hcs] at hw; simp at hw
        | none =>
          rw [hcs] at hw
          cases hw
          have hcm : lookupEntry (esS ++ [(m, FsNode.dir none [])]) m
              = some (FsNode.dir none []) := by
            simp [lookupEntry_append, hcs, lookupEntry]
          rcases hws : Dirs.writeEntries sub (FsNode.dir none []) with ⟨c', serr⟩
          have hframe :
              (FsNode.dir reS (setEntry (esS ++ [(m, FsNode.dir none [])]) m c')).lookup [n]
                = (FsNode.dir reS esS).lookup [n] := by
            rw [setEntry_append_none _ _ hcs]
            simp only [FsNode.lookup, lookupEntry_append]
            cases hme : lookupEntry esS n with
            | some c2 => rfl
            | none => simp [lookupEntry, hmn]
          match serr with
          | some e2 => simpa only [hcm, hws] using hframe
          | none =>
            simp only [hcm, hws]
            rw [ih2 _ n hrest]
            exact hframe
    | error e =>
      by_cases hok : isWriteErrOk s (some e) m true = true
      · simp only [hw, hok, Bool.not_true, Bool.false_eq_true, if_false]
        match s with
        | .file reS dS => simp [FsNode.lookup]
        | .dir reS esS =>
          match hcm : lookupEntry esS m with
          | none => simp [hcm, FsNode.lookup]
          | some c =>
            rcases hws : Dirs.writeEntries sub c with ⟨c', serr⟩
            have hframe : (FsNode.dir reS (setEntry esS m c')).lookup [n]
                = (FsNode.dir reS esS).lookup [n] := by
              simp only [FsNode.lookup,
                lookupEntry_setEntry_ne _ (fun hc2 => hmn hc2.symm)]
            match serr with
            | some e2 => simp only [hcm, hws, hframe]
            | none =>
              simp only [hcm, hws]
              rw [ih2 _ n hrest, hframe]
      · rw [Bool.not_eq_true] at hok
        simp only [hw, hok, Bool.not_false, if_true]

/-- Writing a one-level file into a directory keeps the root a directory
with the same injected error. -/
theorem writeEmptyFile_root {re : Option FsErr} {es : List (String × FsNode)}
    {m : String} {s1 : FsNode} (h : writeEmptyFile (FsNode.dir re es) m = Except.ok s1) :
    ∃ es1, s1 = FsNode.dir re es1 := by
  simp only [writeEmptyFile, FsNode.writeFile] at h
  match hc : lookupEntry es m with
  | some (.dir a b) => rw [hc] at h; simp at h
  | some (.file fe fd) => rw [hc] at h; cases h; exact ⟨_, rfl⟩
  | none => rw [hc] at h; cases h; exact ⟨_, rfl⟩

/-- `Mkdir` one level down keeps the root a directory with the same injected
error. -/
theorem mkdir1_root {re : Option FsErr} {es : List (String × FsNode)}
    {m : String} {s1 : FsNode} (h : (FsNode.dir re es).mkdir1 m = Except.ok s1) :
    ∃ es1, s1 = FsNode.dir re es1 := by
  simp only [FsNode.mkdir1] at h
  match hc : lookupEntry es m with
  | some c => rw [hc] at h; simp at h
  | none => rw [hc] at h; cases h; exact ⟨_, rfl⟩

/-- The entry loop of `Dirs.Write` keeps the root a directory with the same
injected error, whatever the outcome. -/
theorem writeEntries_root : ∀ (l : List (String × Dirs)) (re : Option FsErr)
    (es : List (String × FsNode)),
    ∃ es1, (Dirs.writeEntries l (FsNode.dir re es)).1 = FsNode.dir re es1 := by
  intro l
  induction l using Dirs.toEntries.induct with
  | case1 => intro re es; exact ⟨es, by simp [Dirs.writeEntries]⟩
  | case2 m rest ih =>
    intro re es
    simp only [Dirs.writeEntries]
    cases hw : writeEmptyFile (FsNode.dir re es) m with
    | ok sA =>
      obtain ⟨esA, rfl⟩ := writeEmptyFile_root hw
      have hok : isWriteErrOk (FsNode.dir re esA) none m false = true := by
        simp [isWriteErrOk, isExistErr]
      simp only [hw, hok, Bool.not_true, Bool.false_eq_true, if_false]
      exact ih re esA
    | error e =>
      by_cases hok : isWriteErrOk (FsNode.dir re es) (some e) m false = true
      · simp only [hw, hok, Bool.not_true, Bool.false_eq_true, if_false]
        exact ih re es
      · rw [Bool.not_eq_true] at hok
        simp only [hw, hok, Bool.not_false, if_true]
        exact ⟨es, rfl⟩
  | case3 m sub rest ih1 ih2 =>
    intro re es
    simp only [Dirs.writeEntries]
    cases hw : (FsNode.dir re es).mkdir1 m with
    | ok sA =>
      obtain ⟨esA, rfl⟩ := mkdir1_root hw
      have hok : isWriteErrOk (FsNode.dir re esA) none m true = true := by
        simp [isWriteErrOk, isExistErr]
      simp only [hw, hok, Bool.not_true, Bool.false_eq_true, if_false]
      match hcm : lookupEntry esA m with
      | none => simp only [hcm]; exact ⟨esA, rfl⟩
      | some c =>
        rcases hws : Dirs.writeEntries sub c with ⟨c', serr⟩
        simp only [hcm, hws]
        match serr with
        | some e2 => exact ⟨setEntry esA m c', rfl⟩
        | none => exact ih2 re (setEntry esA m c')
    | error e =>
      by_cases hok : isWriteErrOk (FsNode.dir re es) (some e) m true = true
      · simp only [hw, hok, Bool.not_true, Bool.false_eq_true, if_false]
        match hcm : lookupEntry es m with
        | none => simp only [hcm]; exact ⟨es, rfl⟩
        | some c =>
          rcases hws : Dirs.writeEntries sub c with ⟨c', serr⟩
          simp only [hcm, hws]
          match serr with
          | some e2 => exact ⟨setEntry es m c', rfl⟩
          | none => exact ih2 re (setEntry es m c')
      · rw [Bool.not_eq_true] at hok
        simp only [hw, hok, Bool.not_false, if_true]
        exact ⟨es, rfl⟩

/-- The state a successful `Dirs.Write` leaves behind, seen from the entry
list: every file marker is an empty plain file, every nested snapshot a
directory whose subtree is in turn established. -/
def established : List (String × Dirs) → FsNode → Prop
  | [], _ => True
  | (n, Dirs.nil) :: rest, s =>
    s.lookup [n] = some (FsNode.file none []) ∧ established rest s
  | (n, Dirs.node sub) :: rest, s =>
    (∃ de es2, s.lookup [n] = some (FsNode.dir de es2) ∧
      established sub (FsNode.dir de es2)) ∧ established rest s

/-- A successful run of the entry loop of `Dirs.Write` establishes the
written snapshot in the resulting state. -/
theorem established_of_writeEntries : ∀ (l : List (String × Dirs)) {s s1 : FsNode},
    Dirs.wfEntries l = true → Dirs.writeEntries l s = (s1, none) → established l s1 := by
  intro l
  induction l using Dirs.toEntries.induct with
  | case1 =>
    intro s s1 _ hw
    simp only [Dirs.writeEntries, Prod.mk.injEq] at hw
    simp only [established]
  | case2 m rest ih =>
    intro s s1 hwf hw
    simp only [Dirs.wfEntries, Bool.and_eq_true] at hwf
    obtain ⟨⟨⟨hv, hnc⟩, hwv⟩, hwfr⟩ := hwf
    have hner : ∀ e ∈ rest, e.1 ≠ m := by
      intro e he hem
      rw [Bool.not_eq_eq_eq_not, Bool.not_true, List.contains_eq_any_beq] at hnc
      simp only [List.any_eq_false] at hnc
      have hmem : e.1 ∈ List.map (fun x => x.1) rest := List.mem_map_of_mem (·.1) he
      rw [hem] at hmem
      exact hnc m hmem (by simp)
    simp only [Dirs.writeEntries] at hw
    cases hwE : writeEmptyFile s m with
    | ok sA =>
      have hok : isWriteErrOk sA none m false = true := by
        simp [isWriteErrOk, isExistErr]
      simp only [hwE, hok, Bool.not_true, Bool.false_eq_true, if_false] at hw
      have hfile : sA.lookup [m] = some (FsNode.file none []) := writeFile_ok_fileAt hwE
      have hfr := writeEntries_frame rest sA m hner
      rw [hw] at hfr
      simp only [established]
      exact ⟨hfr.trans hfile, ih hwfr hw⟩
    | error e =>
      by_cases hok : isWriteErrOk s (some e) m false = true
      · cases e with
        | exist => exact absurd hwE writeFile_no_exist
        | notExist => simp [isWriteErrOk, isExistErr] at hok
        | notDir => simp [isWriteErrOk, isExistErr] at hok
        | isDir => simp [isWriteErrOk, isExistErr] at hok
        | eof => simp [isWriteErrOk, isExistErr] at hok
      · rw [Bool.not_eq_true] at hok
        simp only [hwE, hok, Bool.not_false, if_true, Prod.mk.injEq] at hw
        exact absurd hw.2 (by simp)
  | case3 m sub rest ih1 ih2 =>
    intro s s1 hwf hw
    simp only [Dirs.wfEntries, Dirs.wfVal, Bool.and_eq_true] at hwf
    obtain ⟨⟨⟨hv, hnc⟩, hwv⟩, hwfr⟩ := hwf
    have hner : ∀ e ∈ rest, e.1 ≠ m := by
      intro e he hem
      rw [Bool.not_eq_eq_eq_not, Bool.not_true, List.contains_eq_any_beq] at hnc
      simp only [List.any_eq_false] at hnc
      have hmem : e.1 ∈ List.map (fun x => x.1) rest := List.mem_map_of_mem (·.1) he
      rw [hem] at hmem
      exact hnc m hmem (by simp)
    simp only [Dirs.writeEntries] at hw
    cases hwE : s.mkdir1 m with
    | ok sA =>
      have hok : isWriteErrOk sA none m true = true := by
        simp [isWriteErrOk, isExistErr]
      simp only [hwE, hok, Bool.not_true, Bool.false_eq_true, if_false] at hw
      match s, hwE with
      | .dir reS esS, hwE =>
        simp only [FsNode.mkdir1] at hwE
        match hcs : lookupEntry esS m with
        | some c => rw [hcs] at hwE; simp at hwE
        | none =>
          rw [hcs] at hwE
          cases hwE
          have hcm : lookupEntry (esS ++ [(m, FsNode.dir none [])]) m
              = some (FsNode.dir none []) := by
            simp [lookupEntry_append, hcs, lookupEntry]
          rcases hws : Dirs.writeEntries sub (FsNode.dir none []) with ⟨c', serr⟩
          simp only [hcm, hws] at hw
          match serr with
          | some e2 => simp at hw
          | none =>
            obtain ⟨esz, hcz⟩ := writeEntries_root sub none []
            rw [hws] at hcz
            have hc' : c' = FsNode.dir none esz := hcz
            subst hc'
            simp at hw
            simp only [established]
            refine ⟨⟨none, esz, ?_, ih1 hwv hws⟩, ih2 hwfr hw⟩
            have hfr := writeEntries_frame rest
              (FsNode.dir reS (setEntry (esS ++ [(m, FsNode.dir none [])]) m
                (FsNode.dir none esz))) m hner
            rw [hw] at hfr
            refine hfr.trans ?_
            rw [setEntry_append_none _ _ hcs]
            simp [FsNode.lookup, lookupEntry_append, hcs, lookupEntry]
    | error e =>
      by_cases hok : isWriteErrOk s (some e) m true = true
      · simp only [hwE, hok, Bool.not_true, Bool.false_eq_true, if_false] at hw
        cases s with
        | file reS dS => simp at hw
        | dir reS esS =>
          match hcs : lookupEntry esS m with
          | none =>
            simp [FsNode.mkdir1, hcs] at hwE
          | some c =>
            simp only [FsNode.mkdir1, hcs] at hwE
            cases hwE
            have hcd : c.isDir = true := by
              simpa [isWriteErrOk, isExistErr, FsNode.lookup, hcs] using hok
            cases c with
            | file fe fd => simp [FsNode.isDir] at hcd
            | dir de es2 =>
              simp only [hcs] at hw
              rcases hws : Dirs.writeEntries sub (FsNode.dir de es2) with ⟨c', serr⟩
              simp only [hws] at hw
              match serr with
              | some e2 => simp at hw
              | none =>
                obtain ⟨esz, hcz⟩ := writeEntries_root sub de es2
                rw [hws] at hcz
                have hc' : c' = FsNode.dir de esz := hcz
                subst hc'
                simp at hw
                simp only [established]
                refine ⟨⟨de, esz, ?_, ih1 hwv hws⟩, ih2 hwfr hw⟩
                have hfr := writeEntries_frame rest
                  (FsNode.dir reS (setEntry esS m (FsNode.dir de esz))) m hner
                rw [hw] at hfr
                refine hfr.trans ?_
                simp [FsNode.lookup, lookupEntry_setEntry _ hcs]
      · rw [Bool.not_eq_true] at hok
        simp only [hwE, hok, Bool.not_false, if_true, Prod.mk.injEq] at hw
        exact absurd hw.2 (by simp)

/-- An established snapshot writes back as a no-op: every entry already has
the right shape, so each step is tolerated or rewrites identical data. -/
theorem writeEntries_established : ∀ (l : List (String × Dirs)) (s : FsNode),
    established l s → Dirs.writeEntries l s = (s, none) := by
  intro l
  induction l using Dirs.toEntries.induct with
  | case1 => intro s _; simp [Dirs.writeEntries]
  | case2 m rest ih =>
    intro s h
    simp only [established] at h
    obtain ⟨hm, hrest⟩ := h
    have hwf : writeEmptyFile s m = Except.ok s := writeFile_id hm (by simp)
    have hok : isWriteErrOk s none m false = true := by
      simp [isWriteErrOk, isExistErr]
    simp only [Dirs.writeEntries, hwf, hok, Bool.not_true, Bool.false_eq_true, if_false]
    exact ih s hrest
  | case3 m sub rest ih1 ih2 =>
    intro s h
    simp only [established] at h
    obtain ⟨⟨de, es2, hm, hsub⟩, hrest⟩ := h
    cases s with
    | file reS dS => simp [FsNode.lookup] at hm
    | dir reS esS =>
      have hcm : lookupEntry esS m = some (FsNode.dir de es2) := by
        simp only [FsNode.lookup] at hm
        match hc : lookupEntry esS m with
        | none => rw [hc] at hm; exact absurd hm (by simp)
        | some c =>
          rw [hc] at hm
          simp only [FsNode.lookup] at hm
          exact hm
      have hmk : (FsNode.dir reS esS).mkdir1 m = Except.error FsErr.exist := by
        simp [FsNode.mkdir1, hcm]
      have hok : isWriteErrOk (FsNode.dir reS esS) (some FsErr.exist) m true = true := by
        simp [isWriteErrOk, isExistErr, FsNode.lookup, hcm, FsNode.isDir]
      have hws : Dirs.writeEntries sub (FsNode.dir de es2) = (FsNode.dir de es2, none) :=
        ih1 _ hsub
      have hset : setEntry esS m (FsNode.dir de es2) = esS := setEntry_self hcm
      simp only [Dirs.writeEntries, hmk, hok, Bool.not_true, Bool.false_eq_true, if_false,
        hcm, hws, hset]
      exact ih2 _ hrest

/-- A run of `Files.Write` never removes a directory: any path that already
resolved to a directory still does, whatever the outcome. -/
theorem filesWrite_isDirAt_mono : ∀ (F : Files) (s : FsNode) (q : FsPath),
    s.isDirAt q = true → ((Files.Write F s).1).isDirAt q = true := by
  intro F
  induction F with
  | nil =>
    intro s q h
    simpa [Files.Write] using h
  | cons e rest ih =>
    obtain ⟨p, v⟩ := e
    intro s q h
    cases hm : s.mkdirAll p.dropLast with
    | error e1 =>
      simp only [Files.Write, hm]
      exact h
    | ok sA =>
      have hA : sA.isDirAt q = true := by
        rw [mkdirAll_isDirAt hm q, h]
        simp
      cases hf : sA.writeFile p v.bytes with
      | error e2 =>
        simp only [Files.Write, hm, hf]
        exact hA
      | ok sB =>
        have hB : sB.isDirAt q = true := by
          rw [writeFile_isDirAt hf q]
          exact hA
        simp only [Files.Write, hm, hf]
        exact ih sB q hB

/-- After a successful `Files.Write`, every written key holds exactly its
contents as a healthy plain file, and every directory on the way to it
exists. -/
theorem filesWrite_established : ∀ (F : Files) {s s1 : FsNode},
    noInitPairs (F.map (·.1)) = true →
    Files.Write F s = (s1, none) →
    ∀ e ∈ F, s1.lookup e.1 = some (FsNode.file none e.2.bytes) ∧
      ∀ q, isInitSeg q e.1.dropLast = true → s1.isDirAt q = true := by
  intro F
  induction F with
  | nil =>
    intro s s1 _ _ e he
    simp at he
  | cons hd rest ih =>
    obtain ⟨p, v⟩ := hd
    intro s s1 hnoi hw
    simp only [List.map_cons] at hnoi
    simp only [Files.Write] at hw
    cases hm : s.mkdirAll p.dropLast with
    | error e1 => simp only [hm] at hw; simp at hw
    | ok sA =>
      simp only [hm] at hw
      cases hf : sA.writeFile p v.bytes with
      | error e2 => simp only [hf] at hw; simp at hw
      | ok sB =>
        simp only [hf] at hw
        intro e he
        rcases List.mem_cons.mp he with he1 | he1
        · subst he1
          constructor
          · have hB : sB.lookup p = some (FsNode.file none v.bytes) :=
              writeFile_ok_fileAt hf
            refine filesWrite_keeps_file rest hw hB ?_
            intro k hk hkp
            simp only [noInitPairs, Bool.and_eq_true, List.all_eq_true] at hnoi
            have := hnoi.1 k hk
            rw [hkp, isInitSeg_refl] at this
            simp at this
          · intro q hq
            have hA : sA.isDirAt q = true := by
              rw [mkdirAll_isDirAt hm q, hq]
              simp
            have hB : sB.isDirAt q = true := by
              rw [writeFile_isDirAt hf q]
              exact hA
            have hfin := filesWrite_isDirAt_mono rest sB q hB
            rw [hw] at hfin
            exact hfin
        · exact ih (noInitPairs_tail hnoi) hw e he1

/-- Writing a flat snapshot into a state where every key already holds its
contents and every parent directory exists is a no-op. -/
theorem filesWrite_of_established : ∀ (F : Files) (s : FsNode),
    (∀ e ∈ F, e.1 ≠ ([] : FsPath)) →
    (∀ e ∈ F, s.lookup e.1 = some (FsNode.file none e.2.bytes) ∧
      ∀ q, isInitSeg q e.1.dropLast = true → s.isDirAt q = true) →
    Files.Write F s = (s, none) := by
  intro F
  induction F with
  | nil =>
    intro s _ _
    simp [Files.Write]
  | cons hd rest ih =>
    obtain ⟨p, v⟩ := hd
    intro s hne h
    obtain ⟨hf, hd2⟩ := h (p, v) (List.mem_cons_self _ _)
    have hpar : s.isDirAt p.dropLast = true := hd2 p.dropLast (isInitSeg_refl _)
    have hldir : ∃ a b, s.lookup p.dropLast = some (FsNode.dir a b) := by
      simp only [FsNode.isDirAt] at hpar
      cases hl : s.lookup p.dropLast with
      | none => rw [hl] at hpar; simp at hpar
      | some c =>
        rw [hl] at hpar
        cases c with
        | file fe fd => simp [FsNode.isDir] at hpar
        | dir a b => exact ⟨a, b, rfl⟩
    obtain ⟨a, b, hlab⟩ := hldir
    have hmk : s.mkdirAll p.dropLast = Except.ok s := mkdirAll_id hlab
    have hwr : s.writeFile p v.bytes = Except.ok s :=
      writeFile_id hf (hne (p, v) (List.mem_cons_self _ _))
    simp only [Files.Write, hmk, hwr]
    exact ih s (fun e he => hne e (List.mem_cons_of_mem _ he))
      (fun e he => h e (List.mem_cons_of_mem _ he))

/-- C3. Write idempotence: for a snapshot `S` (tree or flat form) whose
entries have internally consistent types, if `Write` into a directory
succeeds, then calling `Write` again on the resulting state succeeds as
well and leaves the disk state identical to the state after the first
call. -/
theorem fsnap_write_idempotent :
    (∀ (S : Dirs) (s0 s1 : FsNode), Dirs.wfVal S = true →
      Dirs.Write S s0 = (s1, none) → Dirs.Write S s1 = (s1, none)) ∧
    (∀ (F : Files) (s0 s1 : FsNode), Files.wf F = true →
      Files.Write F s0 = (s1, none) → Files.Write F s1 = (s1, none)) := by
  constructor
  · intro S s0 s1 hwf hw
    cases S with
    | nil =>
      simp only [Dirs.Write, Prod.mk.injEq] at hw
      simp [Dirs.Write]
    | node l =>
      simp only [Dirs.Write] at hw ⊢
      have hwfe : Dirs.wfEntries l = true := by simpa [Dirs.wfVal] using hwf
      exact writeEntries_established l s1 (established_of_writeEntries l hwfe hw)
  · intro F s0 s1 hwf hw
    simp only [Files.wf, Bool.and_eq_true, List.all_eq_true] at hwf
    obtain ⟨hval, hnoi⟩ := hwf
    have hne : ∀ e ∈ F, e.1 ≠ ([] : FsPath) := by
      intro e he hcon
      have hv := hval e he
      rw [hcon] at hv
      simp [validFsPath] at hv
    exact filesWrite_of_established F s1 hne (filesWrite_established F hnoi hw)

/-- Concrete instance of the idempotence claim: a nested tree snapshot and
a nested flat snapshot, each written into an empty directory and then
rewritten over their own output. -/
theorem fsnap_write_idempotent_witness :
    (Dirs.wfVal (Dirs.node [("d", Dirs.node [("f", Dirs.nil)])]) = true ∧
      Dirs.Write (Dirs.node [("d", Dirs.node [("f", Dirs.nil)])]) (FsNode.dir none []) =
        (FsNode.dir none [("d", FsNode.dir none [("f", FsNode.file none [])])], none) ∧
      Dirs.Write (Dirs.node [("d", Dirs.node [("f", Dirs.nil)])])
          (FsNode.dir none [("d", FsNode.dir none [("f", FsNode.file none [])])]) =
        (FsNode.dir none [("d", FsNode.dir none [("f", FsNode.file none [])])], none)) ∧
    (Files.wf [([("a" : String), "b"], some [1, 2])] = true ∧
      Files.Write [([("a" : String), "b"], some [1, 2])] (FsNode.dir none []) =
        (FsNode.dir none [("a", FsNode.dir none [("b", FsNode.file none [1, 2])])], none) ∧
      Files.Write [([("a" : String), "b"], some [1, 2])]
          (FsNode.dir none [("a", FsNode.dir none [("b", FsNode.file none [1, 2])])]) =
        (FsNode.dir none [("a", FsNode.dir none [("b", FsNode.file none [1, 2])])], none)) := by
  have hd1 : Dirs.wfVal (Dirs.node [("d", Dirs.node [("f", Dirs.nil)])]) = true := by
    decide
  have hd2 : Dirs.Write (Dirs.node [("d", Dirs.node [("f", Dirs.nil)])]) (FsNode.dir none []) =
      (FsNode.dir none [("d", FsNode.dir none [("f", FsNode.file none [])])], none) := by
    simp [Dirs.Write, Dirs.writeEntries, writeEmptyFile, FsNode.writeFile,
      FsNode.mkdir1, isWriteErrOk, isExistErr, lookupEntry, setEntry]
  have hf1 : Files.wf [([("a" : String), "b"], some [1, 2])] = true := by
    decide
  have hf2 : Files.Write [([("a" : String), "b"], some [1, 2])] (FsNode.dir none []) =
      (FsNode.dir none [("a", FsNode.dir none [("b", FsNode.file none [1, 2])])], none) := by
    simp [Files.Write, FsNode.mkdirAll, FsNode.writeFile, FData.bytes, lookupEntry, setEntry]
  exact ⟨⟨hd1, hd2, fsnap_write_idempotent.1 _ (FsNode.dir none []) _ hd1 hd2⟩,
    ⟨hf1, hf2, fsnap_write_idempotent.2 _ (FsNode.dir none []) _ hf1 hf2⟩⟩
